import Mathlib

/-!
# Verification of the skillq-app core pipeline

A shallow embedding of the non-trivial logic of the skillq-app repository:

* `backend/pii_processor.py` — name validation (`is_valid_name`), location
  decomposition (`extract_location_components`), the recognizer-result
  processing loop of `extract_pii`, and the placeholder substitution of
  `anonymize_text` (Python `str.replace`, which replaces every occurrence).
* `backend/resume_parser.py` — `clean_text` normalization.
* `backend/resume_processor.py` — `calculate_risk_score`.
* `pages/chat.py` — the keyword phase of `refine_search_candidates` and the
  outreach rate limiter (`can_generate_outreach` / `update_outreach_count`,
  including the `st.cache_data(ttl=3600)` memoization wrapped around the
  former).

Python strings are modelled as `List Char`.  Machine-level details that no
modelled function depends on (Unicode case folding beyond ASCII, IEEE float
formatting) are noted at the definition concerned.
-/

/-- Python strings are modelled as lists of characters. -/
abbrev Str := List Char

/-- A Lean string literal, as a `Str`. -/
def str (s : String) : Str := s.data

/-! ## Substring predicates

`IsHead p s` models Python `s.startswith(p)`, `IsPart p s` models
Python `p in s` (contiguous substring), `IsTail p s` models
`s.endswith(p)`.  Executable counterparts feed the `Decidable` instances. -/

/-- `p` is a leading segment of `s`. -/
def IsHead (p s : Str) : Prop := ∃ t, s = p ++ t

/-- `p` is a trailing segment of `s`. -/
def IsTail (p s : Str) : Prop := ∃ t, s = t ++ p

/-- `p` occurs contiguously somewhere inside `s` (Python `p in s`). -/
def IsPart (p s : Str) : Prop := ∃ a b, s = a ++ p ++ b

/-- Executable test for `IsHead`. -/
def isHeadB : Str → Str → Bool
  | [], _ => true
  | _ :: _, [] => false
  | a :: as, b :: bs => a == b && isHeadB as bs

/-- Executable test for `IsPart`. -/
def isPartB (p : Str) : Str → Bool
  | [] => p.isEmpty
  | c :: cs => isHeadB p (c :: cs) || isPartB p cs

theorem isHeadB_iff (p s : Str) : isHeadB p s = true ↔ IsHead p s := by
  induction p generalizing s with
  | nil => simp [isHeadB, IsHead]
  | cons a as ih =>
    cases s with
    | nil => simp [isHeadB, IsHead]
    | cons b bs =>
      simp only [isHeadB, Bool.and_eq_true, beq_iff_eq, ih, IsHead]
      constructor
      · rintro ⟨rfl, t, rfl⟩; exact ⟨t, rfl⟩
      · rintro ⟨t, h⟩
        cases h
        exact ⟨rfl, t, rfl⟩

theorem isPartB_iff (p s : Str) : isPartB p s = true ↔ IsPart p s := by
  induction s with
  | nil =>
    simp only [isPartB, List.isEmpty_iff, IsPart]
    constructor
    · rintro rfl; exact ⟨[], [], rfl⟩
    · rintro ⟨a, b, h⟩
      rcases List.append_eq_nil.mp h.symm with ⟨h1, h2⟩
      exact (List.append_eq_nil.mp h1).2
  | cons c cs ih =>
    simp only [isPartB, Bool.or_eq_true, isHeadB_iff, ih]
    constructor
    · rintro (⟨t, h⟩ | ⟨a, b, h⟩)
      · exact ⟨[], t, by simp [h]⟩
      · exact ⟨c :: a, b, by simp [h]⟩
    · rintro ⟨a, b, h⟩
      cases a with
      | nil => exact Or.inl ⟨b, by simpa using h⟩
      | cons x xs =>
        simp only [List.cons_append, List.cons.injEq] at h
        exact Or.inr ⟨xs, b, h.2⟩

instance (p s : Str) : Decidable (IsHead p s) :=
  decidable_of_iff (isHeadB p s = true) (isHeadB_iff p s)

instance (p s : Str) : Decidable (IsPart p s) :=
  decidable_of_iff (isPartB p s = true) (isPartB_iff p s)

theorem isPart_of_isHead {p s : Str} (h : IsHead p s) : IsPart p s := by
  rcases h with ⟨t, rfl⟩; exact ⟨[], t, rfl⟩

theorem isPart_refl (p : Str) : IsPart p p := ⟨[], [], by simp⟩

theorem isPart_cons {p s : Str} (c : Char) (h : IsPart p s) : IsPart p (c :: s) := by
  rcases h with ⟨a, b, rfl⟩; exact ⟨c :: a, b, rfl⟩

theorem isPart_append_left {p s : Str} (t : Str) (h : IsPart p s) : IsPart p (t ++ s) := by
  rcases h with ⟨a, b, rfl⟩; exact ⟨t ++ a, b, by simp⟩

theorem isPart_append_right {p s : Str} (t : Str) (h : IsPart p s) : IsPart p (s ++ t) := by
  rcases h with ⟨a, b, rfl⟩; exact ⟨a, b ++ t, by simp⟩

theorem isPart_nil_elim {p : Str} (h : IsPart p []) : p = [] := by
  rcases h with ⟨a, b, hab⟩
  rcases List.append_eq_nil.mp hab.symm with ⟨h1, _⟩
  exact (List.append_eq_nil.mp h1).2

theorem mem_of_isPart {p s : Str} {c : Char} (hc : c ∈ p) (h : IsPart p s) : c ∈ s := by
  rcases h with ⟨a, b, rfl⟩
  simp [hc]

theorem isPart_trans {p q s : Str} (h1 : IsPart p q) (h2 : IsPart q s) : IsPart p s := by
  rcases h1 with ⟨a, b, rfl⟩
  rcases h2 with ⟨x, y, rfl⟩
  exact ⟨x ++ a, b ++ y, by simp⟩

theorem isPart_cons_elim {p s : Str} {c : Char} (h : IsPart p (c :: s)) :
    IsHead p (c :: s) ∨ IsPart p s := by
  rcases h with ⟨a, b, hab⟩
  cases a with
  | nil => exact Or.inl ⟨b, by simpa using hab⟩
  | cons x xs =>
    simp only [List.cons_append, List.cons.injEq] at hab
    exact Or.inr ⟨xs, b, hab.2⟩

theorem isHead_append_elim {p a b : Str} (h : IsHead p (a ++ b)) :
    (p.length ≤ a.length ∧ IsHead p a) ∨ ∃ p₂, p = a ++ p₂ ∧ IsHead p₂ b := by
  induction a generalizing p with
  | nil => exact Or.inr ⟨p, by simp, by simpa using h⟩
  | cons c a' ih =>
    cases p with
    | nil => exact Or.inl ⟨by simp, ⟨c :: a' , rfl⟩⟩
    | cons d p' =>
      rcases h with ⟨t, ht⟩
      simp only [List.cons_append, List.cons.injEq] at ht
      obtain ⟨rfl, ht⟩ := ht
      rcases ih ⟨t, ht⟩ with ⟨hlen, u, hu⟩ | ⟨p₂, rfl, hp₂⟩
      · exact Or.inl ⟨by simpa using Nat.succ_le_succ hlen, ⟨u, by simp [hu]⟩⟩
      · exact Or.inr ⟨p₂, by simp, hp₂⟩

theorem isPart_append_elim {p a b : Str} (h : IsPart p (a ++ b)) :
    IsPart p a ∨ IsPart p b ∨
      ∃ p₁ p₂, p = p₁ ++ p₂ ∧ p₁ ≠ [] ∧ p₂ ≠ [] ∧ IsTail p₁ a ∧ IsHead p₂ b := by
  induction a generalizing p with
  | nil => exact Or.inr (Or.inl (by simpa using h))
  | cons c a' ih =>
    rw [List.cons_append] at h
    rcases isPart_cons_elim h with hh | hp
    · rcases isHead_append_elim (a := c :: a') hh with ⟨_, hha⟩ | ⟨p₂, rfl, hp₂⟩
      · exact Or.inl (isPart_of_isHead hha)
      · by_cases hp2 : p₂ = []
        · subst hp2; exact Or.inl (by simpa using isPart_refl (c :: a'))
        · exact Or.inr (Or.inr ⟨c :: a', p₂, rfl, by simp, hp2, ⟨[], rfl⟩, hp₂⟩)
    · rcases ih hp with h1 | h2 | ⟨p₁, p₂, rfl, h3, h4, ⟨t, rfl⟩, h6⟩
      · exact Or.inl (isPart_cons c h1)
      · exact Or.inr (Or.inl h2)
      · exact Or.inr (Or.inr ⟨p₁, p₂, rfl, h3, h4, ⟨c :: t, rfl⟩, h6⟩)

theorem isTail_last_mem {p u : Str} {x : Char} (hp : p ≠ []) (h : IsTail p (u ++ [x])) :
    x ∈ p := by
  rcases h with ⟨t, ht⟩
  have hlast : (u ++ [x]).getLast? = some x := by simp
  rw [ht, List.getLast?_append] at hlast
  cases hpl : p.getLast? with
  | none => exact absurd (List.getLast?_eq_none_iff.mp hpl) hp
  | some y =>
    rw [hpl] at hlast
    simp only [Option.or_some, Option.some.injEq] at hlast
    subst hlast
    rcases List.mem_getLast?_eq_getLast (show y ∈ p.getLast? from hpl) with ⟨hne, hx⟩
    rw [hx]
    exact List.getLast_mem hne

/-! ## Python `str.replace`

`replaceAll p r s` models Python `s.replace(p, r)`: scan `s` left to right,
replacing every non-overlapping occurrence of `p` by `r`.  The anonymizer
only ever calls `replace` with a non-empty pattern (each replacement is
guarded by a Python truthiness test on the field value), and for a non-empty
pattern the definition below matches Python semantics exactly; for `p = []`
it leaves `s` unchanged (that case is unreachable from the modelled code). -/

def replaceAll (p r : Str) : Str → Str
  | [] => []
  | c :: cs =>
    if isHeadB p (c :: cs) && !p.isEmpty then
      r ++ replaceAll p r (List.drop (p.length - 1) cs)
    else c :: replaceAll p r cs
termination_by s => s.length
decreasing_by
  · simp only [List.length_drop, List.length_cons]; omega
  · simp only [List.length_cons]; omega

/-- The guard of `replaceAll`, as a proposition. -/
theorem replaceAll_guard_iff (p : Str) (c : Char) (cs : Str) :
    (isHeadB p (c :: cs) && !p.isEmpty) = true ↔ IsHead p (c :: cs) ∧ p ≠ [] := by
  simp [isHeadB_iff, List.isEmpty_iff]

theorem replaceAll_nil (p r : Str) : replaceAll p r [] = [] := by
  simp [replaceAll]

theorem replaceAll_cons_pos {p : Str} (r : Str) {c : Char} {cs : Str}
    (h : IsHead p (c :: cs)) (hp : p ≠ []) :
    replaceAll p r (c :: cs) = r ++ replaceAll p r (List.drop (p.length - 1) cs) := by
  rw [replaceAll, if_pos ((replaceAll_guard_iff p c cs).mpr ⟨h, hp⟩)]

theorem replaceAll_cons_neg {p : Str} (r : Str) {c : Char} {cs : Str}
    (h : ¬(IsHead p (c :: cs) ∧ p ≠ [])) :
    replaceAll p r (c :: cs) = c :: replaceAll p r cs := by
  rw [replaceAll, if_neg (fun hh => h ((replaceAll_guard_iff p c cs).mp hh))]

/-- When the pattern matches at the head, the tail that remains to be
scanned is `s` with the matched pattern removed. -/
theorem drop_head_match {p : Str} {c : Char} {cs : Str} (h : IsHead p (c :: cs))
    (hp : p ≠ []) : c :: cs = p ++ List.drop (p.length - 1) cs := by
  rcases h with ⟨t, ht⟩
  cases p with
  | nil => exact absurd rfl hp
  | cons d p' =>
    simp only [List.cons_append, List.cons.injEq] at ht
    obtain ⟨rfl, rfl⟩ := ht
    simp

/-- A placeholder token: an opening bracket, a body, a closing bracket. -/
def tokLike (q : Str) : Prop := ∃ m, q = '[' :: m ++ [']']

theorem tokLike_head {q : Str} (h : tokLike q) : ∃ q', q = '[' :: q' := by
  rcases h with ⟨m, rfl⟩; exact ⟨m ++ [']'], rfl⟩

/-- A leading segment of a replacement result that contains no opening
bracket was a leading segment of the input (replacement tokens start with
`[`, so a bracket-free scan cannot cross into one). -/
theorem isHead_replaceAll_brfree {r : Str} (hr : tokLike r) {p s : Str} {q : Str}
    (hq : '[' ∉ q) (h : IsHead q (replaceAll p r s)) : IsHead q s := by
  induction s using replaceAll.induct p r generalizing q with
  | case1 =>
    rw [replaceAll_nil] at h
    rcases h with ⟨t, ht⟩
    rcases List.append_eq_nil.mp ht.symm with ⟨rfl, _⟩
    exact ⟨[], rfl⟩
  | case2 c cs hg ih =>
    rcases (replaceAll_guard_iff p c cs).mp hg with ⟨hh, hp⟩
    rw [replaceAll_cons_pos r hh hp] at h
    cases q with
    | nil => exact ⟨c :: cs, rfl⟩
    | cons d q' =>
      rcases tokLike_head hr with ⟨r', rfl⟩
      rcases h with ⟨t, ht⟩
      simp only [List.cons_append, List.cons.injEq] at ht
      exact absurd (List.mem_cons_self d q') (ht.1 ▸ hq)
  | case3 c cs hg ih =>
    rw [replaceAll_cons_neg r (fun hh => hg ((replaceAll_guard_iff p c cs).mpr hh))] at h
    cases q with
    | nil => exact ⟨c :: cs, rfl⟩
    | cons d q' =>
      rcases h with ⟨t, ht⟩
      simp only [List.cons_append, List.cons.injEq] at ht
      obtain ⟨rfl, ht⟩ := ht
      have hq' : '[' ∉ q' := fun hmem => hq (List.mem_cons_of_mem c hmem)
      rcases ih hq' ⟨t, ht⟩ with ⟨u, hu⟩
      exact ⟨u, by simp [hu]⟩

theorem drop_len_cons {w : Str} (hw : w ≠ []) (c : Char) (cs : Str) :
    List.drop (w.length - 1) cs = List.drop w.length (c :: cs) := by
  cases w with
  | nil => exact absurd rfl hw
  | cons d w' => simp

/-- After `s.replace(p, r)` the pattern `p` no longer occurs, provided `p` is
non-empty, bracket-free and not a substring of the bracket-delimited
replacement token `r`. -/
theorem replaceAll_not_isPart_self {p r : Str} (hp : p ≠ []) (hbl : '[' ∉ p)
    (hbr : ']' ∉ p) (hnr : ¬ IsPart p r) (htok : tokLike r) (s : Str) :
    ¬ IsPart p (replaceAll p r s) := by
  induction s using replaceAll.induct p r with
  | case1 =>
    rw [replaceAll_nil]
    exact fun h => hp (isPart_nil_elim h)
  | case2 c cs hg ih =>
    rcases (replaceAll_guard_iff p c cs).mp hg with ⟨hh, _⟩
    rw [replaceAll_cons_pos r hh hp]
    intro h
    rcases isPart_append_elim h with h1 | h2 | ⟨p₁, p₂, hps, hp₁, _, htl, _⟩
    · exact hnr h1
    · exact ih h2
    · rcases htok with ⟨m, rfl⟩
      have : ']' ∈ p₁ := isTail_last_mem hp₁ (u := '[' :: m) (by simpa using htl)
      exact hbr (hps ▸ List.mem_append_left p₂ this)
  | case3 c cs hg ih =>
    have hng : ¬ (IsHead p (c :: cs) ∧ p ≠ []) :=
      fun hh => hg ((replaceAll_guard_iff p c cs).mpr hh)
    rw [replaceAll_cons_neg r hng]
    intro h
    rcases isPart_cons_elim h with hh | hpart
    · have : IsHead p (replaceAll p r (c :: cs)) := by
        rwa [replaceAll_cons_neg r hng]
      exact hng ⟨isHead_replaceAll_brfree htok hbl this, hp⟩
    · exact ih hpart

/-- `s.replace(p, r)` introduces no occurrence of a non-empty bracket-free
string `v` that did not occur in `s` (and is not part of the token `r`). -/
theorem replaceAll_not_isPart_other {v r : Str} (hv : v ≠ []) (hbl : '[' ∉ v)
    (hbr : ']' ∉ v) (hvr : ¬ IsPart v r) (htok : tokLike r) (p s : Str)
    (hs : ¬ IsPart v s) : ¬ IsPart v (replaceAll p r s) := by
  revert hs
  induction s using replaceAll.induct p r with
  | case1 =>
    rw [replaceAll_nil]
    exact fun hs h => hs h
  | case2 c cs hg ih =>
    rcases (replaceAll_guard_iff p c cs).mp hg with ⟨hh, hp⟩
    rw [replaceAll_cons_pos r hh hp]
    intro hs h
    rcases isPart_append_elim h with h1 | h2 | ⟨p₁, p₂, hps, hp₁, _, htl, _⟩
    · exact hvr h1
    · refine ih (fun hdrop => hs ?_) h2
      rw [drop_head_match hh hp]
      exact isPart_append_left p hdrop
    · rcases htok with ⟨m, rfl⟩
      have : ']' ∈ p₁ := isTail_last_mem hp₁ (u := '[' :: m) (by simpa using htl)
      exact hbr (hps ▸ List.mem_append_left p₂ this)
  | case3 c cs hg ih =>
    have hng : ¬ (IsHead p (c :: cs) ∧ p ≠ []) :=
      fun hh => hg ((replaceAll_guard_iff p c cs).mpr hh)
    rw [replaceAll_cons_neg r hng]
    intro hs h
    rcases isPart_cons_elim h with hh | hpart
    · have : IsHead v (replaceAll p r (c :: cs)) := by
        rwa [replaceAll_cons_neg r hng]
      exact hs (isPart_of_isHead (isHead_replaceAll_brfree htok hbl this))
    · exact ih (fun hcs => hs (isPart_cons c hcs)) hpart

/-- If the non-empty pattern `p` occurs in `s`, the replacement token `r`
occurs in `s.replace(p, r)`. -/
theorem replaceAll_token_present {p : Str} (r : Str) (hp : p ≠ []) {s : Str}
    (hs : IsPart p s) : IsPart r (replaceAll p r s) := by
  revert hs
  induction s using replaceAll.induct p r with
  | case1 => exact fun hs => absurd (isPart_nil_elim hs) hp
  | case2 c cs hg ih =>
    rcases (replaceAll_guard_iff p c cs).mp hg with ⟨hh, _⟩
    rw [replaceAll_cons_pos r hh hp]
    exact fun _ => ⟨[], replaceAll p r (List.drop (p.length - 1) cs), by simp⟩
  | case3 c cs hg ih =>
    have hng : ¬ (IsHead p (c :: cs) ∧ p ≠ []) :=
      fun hh => hg ((replaceAll_guard_iff p c cs).mpr hh)
    rw [replaceAll_cons_neg r hng]
    intro hs
    rcases isPart_cons_elim hs with hh | hpart
    · exact absurd ⟨hh, hp⟩ hng
    · exact isPart_cons c (ih hpart)

/-- If no occurrence of the pattern `w` starts within the first `q.length`
positions of `s`, a leading occurrence of `q` survives `s.replace(w, r')`. -/
theorem replaceAll_keeps_head {w : Str} (r' : Str) (hw : w ≠ []) {q s : Str}
    (hqh : IsHead q s) (hnom : ∀ j, j < q.length → ¬ IsHead w (List.drop j s)) :
    IsHead q (replaceAll w r' s) := by
  induction q generalizing s with
  | nil => exact ⟨replaceAll w r' s, rfl⟩
  | cons c q' ih =>
    rcases hqh with ⟨t, rfl⟩
    have hng : ¬ (IsHead w (c :: (q' ++ t)) ∧ w ≠ []) := by
      intro hh
      exact hnom 0 (by simp) (by simpa using hh.1)
    rw [List.cons_append, replaceAll_cons_neg r' (by simpa using hng)]
    have := ih (s := q' ++ t) ⟨t, rfl⟩ (fun j hj => by
      have := hnom (j + 1) (by simpa using Nat.succ_lt_succ hj)
      simpa using this)
    rcases this with ⟨u, hu⟩
    exact ⟨u, by simp [hu]⟩

/-- An occurrence of a bracket-delimited token `q` survives replacement of a
non-empty bracket-free string `w` (that is not part of `q`): a contiguous
match of `w` cannot cross either bracket of the token. -/
theorem replaceAll_keeps_token {q w : Str} (r' : Str) (htok : tokLike q)
    (hw : w ≠ []) (hbl : '[' ∉ w) (hbr : ']' ∉ w) (hwq : ¬ IsPart w q)
    {s : Str} (hs : IsPart q s) : IsPart q (replaceAll w r' s) := by
  revert hs
  induction s using replaceAll.induct w r' with
  | case1 =>
    intro hs
    rcases tokLike_head htok with ⟨q1, rfl⟩
    exact absurd (isPart_nil_elim hs) (by simp)
  | case2 c cs hg ih =>
    rcases (replaceAll_guard_iff w c cs).mp hg with ⟨hh, _⟩
    rw [replaceAll_cons_pos r' hh hw]
    rintro ⟨a, b, hab⟩
    by_cases hlen : w.length ≤ a.length
    · have hdrop : List.drop (w.length - 1) cs = List.drop w.length (c :: cs) :=
        drop_len_cons hw c cs
      refine isPart_append_left r' (ih ?_)
      rw [hdrop, hab, List.append_assoc, List.drop_append_of_le_length hlen]
      exact isPart_append_left _ (isPart_append_right b (isPart_refl q))
    · exfalso
      have hwhead : IsHead w (a ++ (q ++ b)) := by
        rw [← List.append_assoc, ← hab]; exact hh
      rcases isHead_append_elim hwhead with ⟨hle, _⟩ | ⟨w₂, rfl, hw₂⟩
      · exact hlen hle
      · have hw₂ne : w₂ ≠ [] := by
          intro h2
          rw [h2, List.append_nil] at hlen
          exact hlen le_rfl
        rcases tokLike_head htok with ⟨q1, rfl⟩
        rcases hw₂ with ⟨u, hu⟩
        cases w₂ with
        | nil => exact hw₂ne rfl
        | cons d w₂' =>
          simp only [List.cons_append, List.cons.injEq] at hu
          exact hbl (List.mem_append_right a (hu.1 ▸ List.mem_cons_self d w₂'))
  | case3 c cs hg ih =>
    have hng : ¬ (IsHead w (c :: cs) ∧ w ≠ []) :=
      fun hh => hg ((replaceAll_guard_iff w c cs).mpr hh)
    rintro ⟨a, b, hab⟩
    cases a with
    | nil =>
      simp only [List.nil_append] at hab
      have hqh : IsHead q (c :: cs) := ⟨b, hab⟩
      refine isPart_of_isHead (replaceAll_keeps_head r' hw hqh ?_)
      intro j hj hwj
      rw [hab, List.drop_append_of_le_length (Nat.le_of_lt hj)] at hwj
      rcases isHead_append_elim hwj with ⟨_, hwq'⟩ | ⟨w₂, hweq, _⟩
      · rcases hwq' with ⟨u, hu⟩
        exact hwq ⟨List.take j q, u, by rw [List.append_assoc, ← hu, List.take_append_drop]⟩
      · have hqlast : ']' ∈ List.drop j q := by
          rcases htok with ⟨m, rfl⟩
          have hjm : j ≤ ('[' :: m).length := by
            simp only [List.length_cons, List.length_append, List.length_singleton,
              List.length_nil] at hj ⊢
            omega
          rw [show ('[' :: m ++ [']'] : Str) = ('[' :: m) ++ [']'] by simp,
            List.drop_append_of_le_length hjm]
          simp
        refine hbr ?_
        rw [hweq]
        exact List.mem_append_left w₂ hqlast
    | cons c' a' =>
      simp only [List.cons_append, List.cons.injEq] at hab
      obtain ⟨rfl, hab⟩ := hab
      rw [replaceAll_cons_neg r' hng]
      exact isPart_cons c (ih ⟨a', b, hab⟩)

/-! ## Character helpers -/

/-- ASCII lowercasing.  Python `str.lower()` is Unicode-aware; every
comparison in the modelled code is against ASCII-only keywords, so the ASCII
fragment is the relevant one. -/
def asciiLower (c : Char) : Char :=
  if 'A' ≤ c ∧ c ≤ 'Z' then Char.ofNat (c.toNat + 32) else c

def lowerStr (s : Str) : Str := s.map asciiLower

/-- The whitespace class of Python `str.split()` / `str.strip()`:
ASCII whitespace and separator controls plus the Unicode space characters. -/
def isPyWs (c : Char) : Bool :=
  let n := c.toNat
  (9 ≤ n && n ≤ 13) || (28 ≤ n && n ≤ 31) || n == 32 || n == 0x85 || n == 0xa0 ||
    n == 0x1680 || (0x2000 ≤ n && n ≤ 0x200a) || n == 0x2028 || n == 0x2029 ||
    n == 0x202f || n == 0x205f || n == 0x3000

/-- Single-pass splitter behind `wordsOf`: `acc` holds the reversed current
chunk. -/
def wordsAux (acc : Str) : Str → List Str
  | [] => if acc.isEmpty then [] else [acc.reverse]
  | c :: cs =>
      if isPyWs c then
        if acc.isEmpty then wordsAux [] cs else acc.reverse :: wordsAux [] cs
      else wordsAux (c :: acc) cs

/-- Python `s.split()` (no argument): maximal whitespace-free chunks, empty
chunks dropped. -/
def wordsOf (s : Str) : List Str := wordsAux [] s

/-- Python `s.strip()`. -/
def pyStrip (s : Str) : Str :=
  ((s.dropWhile isPyWs).reverse.dropWhile isPyWs).reverse

/-- Split at every character satisfying `sep` (Python `re.split` with a
single-character class): always returns at least one piece, empty pieces
included. -/
def splitCh (sep : Char → Bool) : Str → List Str
  | [] => [[]]
  | c :: cs =>
    if sep c then [] :: splitCh sep cs
    else
      match splitCh sep cs with
      | [] => [[c]]
      | t :: ts => (c :: t) :: ts

theorem splitCh_ne_nil (sep : Char → Bool) (s : Str) : splitCh sep s ≠ [] := by
  cases s with
  | nil => simp [splitCh]
  | cons c cs =>
    simp only [splitCh]
    split
    · simp
    · cases splitCh sep cs <;> simp

/-! ## PIIProcessor (`backend/pii_processor.py`) -/

/-- The `false_positives` lexicon of `PIIProcessor.__init__` (a Python set;
only membership is used, so a list models it). -/
def falsePositives : List Str :=
  [str "docker", str "kubernetes", str "aws", str "azure", str "gcp", str "linux",
   str "windows", str "macos", str "ios", str "android", str "python", str "java",
   str "javascript", str "typescript", str "react", str "angular", str "vue",
   str "node", str "express", str "django", str "flask", str "spring",
   str "hibernate", str "mysql", str "postgresql", str "mongodb", str "redis",
   str "elasticsearch", str "kafka", str "rabbitmq", str "jenkins", str "gitlab",
   str "github", str "bitbucket", str "jira", str "confluence", str "slack",
   str "teams", str "zoom", str "skype"]

/-- The punctuation characters of `is_valid_name`'s rejection regex
`[0-9!@#$%^&*()_+\-=\[\]{};'"\\|,.<>\/?]` (digits aside). -/
def rejectPunct : List Char :=
  ['!', '@', '#', '$', '%', '^', '&', '*', '(', ')', '_', '+', '-',
   '=', '[', ']', '{', '}', ';', '\'', '"', '\\', '|', ',', '.', '<', '>', '/', '?']

/-- The full character class of the rejection regex: a digit or one of the
listed punctuation characters. -/
def badNameChar (c : Char) : Bool :=
  ('0' ≤ c && c ≤ '9') || List.contains rejectPunct c

/-- `PIIProcessor.is_valid_name`, with its four early-return rejections. -/
def isValidName (name : Str) : Bool :=
  if List.contains falsePositives (lowerStr name) then false
  else if (wordsOf name).length < 2 then false
  else if name.any badNameChar then false
  else if name.length < 4 || name.length > 50 then false
  else true

/-- The `location` sub-dictionary of a PII record. -/
structure LocationRec where
  city : Option Str
  state : Option Str
  country : Str
deriving DecidableEq

def defaultLoc : LocationRec := ⟨none, none, str "Australia"⟩

/-- `extract_location_components`: split the span on `[,;]`, strip each part,
fill city/state/country positionally.  `re.split` yields at least one part,
so the source's `if len(parts) >= k` guards amount to optional positional
lookups, with the country defaulting to `'Australia'`. -/
def extractLocationComponents (text : Str) : LocationRec :=
  let parts := (splitCh (fun c => c == ',' || c == ';') text).map pyStrip
  { city := parts[0]?
    state := parts[1]?
    country := parts[2]?.getD (str "Australia") }

inductive EntityType
  | PERSON
  | EMAIL_ADDRESS
  | PHONE_NUMBER
  | LOCATION
deriving DecidableEq

/-- One recognizer result as consumed by `extract_pii`: the entity type and
the span text `text[result.start:result.end]`. -/
structure RecogResult where
  entity_type : EntityType
  value : Str
deriving DecidableEq

structure PIIRec where
  full_name : Option Str
  email : Option Str
  phone : Option Str
  address : Option Str
  location : LocationRec
deriving DecidableEq

/-- The initial `pii_data` dictionary of `extract_pii` (all fields null,
country defaulted). -/
def emptyPII : PIIRec := ⟨none, none, none, none, defaultLoc⟩

/-- One iteration of `extract_pii`'s result loop.  The accumulator carries
the record under construction and the `detected_names` list. -/
def piiStep (isDetailed : Str → Bool) (acc : PIIRec × List Str) (r : RecogResult) :
    PIIRec × List Str :=
  match r.entity_type with
  | EntityType.PERSON =>
      if isValidName r.value then (acc.1, acc.2 ++ [r.value]) else acc
  | EntityType.EMAIL_ADDRESS => ({acc.1 with email := some r.value}, acc.2)
  | EntityType.PHONE_NUMBER => ({acc.1 with phone := some r.value}, acc.2)
  | EntityType.LOCATION =>
      if isDetailed r.value then ({acc.1 with address := some r.value}, acc.2)
      else ({acc.1 with location := extractLocationComponents r.value}, acc.2)

/-- The result-processing phase of `extract_pii`.  The Presidio analyzer and
the `is_detailed_address` regex classifier are external collaborators: the
loop is modelled over an arbitrary result list and an arbitrary classifier
(which in particular covers the concrete regex classifier of the source).
Note `pii_data['location'].update(components)` overwrites all three location
components, because `extract_location_components` unconditionally returns
all three keys; the LOCATION branch of `piiStep` is that wholesale update.
After the loop the first surviving PERSON span becomes `full_name`. -/
def processResults (isDetailed : Str → Bool) (results : List RecogResult) : PIIRec :=
  let out := results.foldl (piiStep isDetailed) (emptyPII, [])
  match out.2.head? with
  | some n => {out.1 with full_name := some n}
  | none => out.1

def nameTok : Str := str "[NAME]"
def emailTok : Str := str "[EMAIL]"
def phoneTok : Str := str "[PHONE]"
def addrTok : Str := str "[ADDRESS]"

def optVal : Option Str → Str
  | none => []
  | some v => v

/-- Python truthiness of an optional string: `None` and `''` are falsy. -/
def pyTruthy (o : Option Str) : Bool := !(optVal o).isEmpty

/-- One guarded replacement of `anonymize_text`:
`if pii_data[f]: anonymized_text = anonymized_text.replace(pii_data[f], tok)`. -/
def applyRepl (field : Option Str) (tok : Str) (t : Str) : Str :=
  if pyTruthy field then replaceAll (optVal field) tok t else t

def anonStage1 (pii : PIIRec) (text : Str) : Str :=
  applyRepl pii.full_name nameTok text

def anonStage2 (pii : PIIRec) (text : Str) : Str :=
  applyRepl pii.email emailTok (anonStage1 pii text)

def anonStage3 (pii : PIIRec) (text : Str) : Str :=
  applyRepl pii.phone phoneTok (anonStage2 pii text)

/-- The replacement phase of `anonymize_text`: name, email, phone, address,
in source order, each replacement global. -/
def anonymizeWith (pii : PIIRec) (text : Str) : Str :=
  applyRepl pii.address addrTok (anonStage3 pii text)

/-- `anonymize_text`: extract the PII record from the recognizer results,
then substitute placeholders; returns `(anonymized_text, pii_data)`. -/
def anonymizeText (isDetailed : Str → Bool) (results : List RecogResult) (text : Str) :
    Str × PIIRec :=
  (anonymizeWith (processResults isDetailed results) text,
    processResults isDetailed results)

/-! ## DocumentTextExtractor normalization (`backend/resume_parser.py`) -/

/-- `clean_text`'s character filter: keep code points ≥ 32 and the three
controls `\n\r\t`. -/
def keepChar (c : Char) : Bool := 32 ≤ c.toNat || c == '\n' || c == '\r' || c == '\t'

/-- Python `' '.join(ws)`. -/
def joinSp : List Str → Str
  | [] => []
  | [w] => w
  | w :: ws => w ++ ' ' :: joinSp ws

/-- `ResumeParser.clean_text`: return `''` on falsy input, else drop control
characters below 32 except `\n\r\t`, then `' '.join(text.split())`. -/
def cleanText (t : Str) : Str :=
  if t.isEmpty then []
  else joinSp (wordsOf (t.filter keepChar))

/-! ## RiskScorer (`backend/resume_processor.py`) -/

/-- Decimal digits of a natural number. -/
def natStr (n : Nat) : Str := (Nat.repr n).data

/-- Python `f"{x:.1f}"` over an exact rational: round to tenths, ties to
even.  CPython formats an IEEE double; on the skill densities the scorer
produces, the exact-rational rounding shown here is the idealization (no
theorem below depends on this string's value). -/
def fmt1 (q : ℚ) : Str :=
  let scaled := q * 10
  let fl : ℤ := ⌊scaled⌋
  let tenths : ℤ :=
    if (scaled - fl : ℚ) > 1/2 then fl + 1
    else if (scaled - fl : ℚ) < 1/2 then fl
    else if fl % 2 = 0 then fl else fl + 1
  let sign : Str := if tenths < 0 then ['-'] else []
  sign ++ natStr (tenths.natAbs / 10) ++ '.' :: natStr (tenths.natAbs % 10)

/-- Python `', '.join(ws)`. -/
def joinComma : List Str → Str
  | [] => []
  | [w] => w
  | w :: ws => w ++ str ", " ++ joinComma ws

structure PersonalInfo where
  full_name : Option Str
  email : Option Str
  phone : Option Str
  location : Option Str
  state : Option Str
  country : Option Str
  linkedin_url : Option Str
deriving DecidableEq

structure WorkExperience where
  total_years_experience : Option ℚ
  current_or_last_job_title : Option Str
  previous_job_titles : List Str
  companies_worked_at : List Str
  employment_type : Option Str
  availability : Option Str
deriving DecidableEq

structure SkillsAndTools where
  skills : List Str
  skill_categories : List (Str × List Str)
  tools_technologies : List Str
deriving DecidableEq

structure EducationCerts where
  education : List Str
  degree_level : List Str
  certifications : List Str
deriving DecidableEq

structure AdditionalInfo where
  summary_statement : Option Str
  languages_spoken : List Str
deriving DecidableEq

/-- `parsed_data` as assembled by `process_resume_content`: the documented
data-model shape.  Note `work_experience` has exactly the six keys the
source stores there; `summary_statement` lives under `additional_info`. -/
structure CandidateProfile where
  personal_info : PersonalInfo
  work_experience : WorkExperience
  skills_and_tools : SkillsAndTools
  education_and_certifications : EducationCerts
  additional_info : AdditionalInfo
deriving DecidableEq

/-- `years_experience is None or years_experience < bound`. -/
def shortExpB (years : Option ℚ) (bound : ℚ) : Bool :=
  match years with
  | none => true
  | some y => decide (y < bound)

/-- Missing-key-information fields, in source order. -/
def missingInfo (pinfo : PersonalInfo) (ed : EducationCerts) : List Str :=
  (if !pyTruthy pinfo.email then [str "email"] else []) ++
    (if !pyTruthy pinfo.phone then [str "phone"] else []) ++
    (if !pyTruthy pinfo.location then [str "location"] else []) ++
    (if ed.education.isEmpty then [str "education details"] else [])

/-- Missing key information (+1). -/
def missingCheck (pinfo : PersonalInfo) (ed : EducationCerts) : Nat × List Str :=
  let missing := missingInfo pinfo ed
  if missing ≠ [] then (1, [str "Missing key information: " ++ joinComma missing])
  else (0, [])

/-- Overlapping roles (+2): `len(set(job_titles)) < len(job_titles)`. -/
def overlapCheck (titles : List Str) : Nat × List Str :=
  if titles.dedup.length < titles.length then
    (2, [str "Overlapping roles detected in work history"])
  else (0, [])

/-- Unrealistic skill claims (+1): more than 3 skills per year. -/
def densityCheck (skills : List Str) (years : Option ℚ) : Nat × List Str :=
  match years with
  | none => (0, [])
  | some y =>
      if 0 < y then
        if (skills.length : ℚ) / y > 3 then
          (1, [str "High skill density (" ++ fmt1 ((skills.length : ℚ) / y) ++
            str " skills/year) for experience level"])
        else (0, [])
      else (0, [])

/-- Multiple short job stints (+2). -/
def stintsCheck (companies : List Str) (years : Option ℚ) : Nat × List Str :=
  if 3 < companies.length ∧ shortExpB years 5 then
    (2, [str "Multiple short job stints detected"])
  else (0, [])

/-- `'senior' in title.lower()`. -/
def hasSenior (t : Str) : Bool := isPartB (str "senior") (lowerStr t)

/-- Inconsistent title progression (+1): some earlier title says senior, the
final one does not. -/
def progressionCheck (titles : List Str) : Nat × List Str :=
  if 1 < titles.length ∧ titles.dropLast.any hasSenior ∧ hasSenior (titles.getLastD []) = false
  then (1, [str "Inconsistent title progression detected"])
  else (0, [])

/-- `calculate_risk_score` reads
`work_experience.get('summary_statement', '')`.  `process_resume_content`
stores the summary under `additional_info` and never under
`work_experience` (see the `parsed_data` construction and the prompt schema
in the same file), so for every profile of the documented shape this lookup
yields the default `''`. -/
def summaryLookup (_wk : WorkExperience) : Str := []

/-- Insufficient details (+1): `not summary or len(summary) < 100`. -/
def summaryCheck (wk : WorkExperience) : Nat × List Str :=
  let summary := summaryLookup wk
  if summary.isEmpty ∨ summary.length < 100 then
    (1, [str "Insufficient details in resume"])
  else (0, [])

def juniorWords : List Str := [str "junior", str "entry", str "associate", str "trainee"]

/-- Education-job mismatch (+1). -/
def mismatchCheck (ed : EducationCerts) (currentTitle : Option Str) : Nat × List Str :=
  if ed.degree_level ≠ [] ∧ pyTruthy currentTitle then
    let ct := lowerStr (optVal currentTitle)
    if (ed.degree_level.any fun l =>
          isPartB (str "phd") (lowerStr l) || isPartB (str "doctorate") (lowerStr l)) ∧
        juniorWords.any (fun jw => isPartB jw ct) then
      (1, [str "Education level appears mismatched with current role"])
    else (0, [])
  else (0, [])

/-- Rapid career progression (+1). -/
def rapidCheck (titles : List Str) (years : Option ℚ) : Nat × List Str :=
  if 2 < titles.length ∧ shortExpB years 3 then
    (1, [str "Rapid career progression detected"])
  else (0, [])

/-- The if-chain computing `risk_level`. -/
def riskLevelName (score : Nat) : Str :=
  if 9 ≤ score then str "Very High"
  else if 6 ≤ score then str "High"
  else if 3 ≤ score then str "Medium"
  else str "Low"

/-- `ResumeProcessor.calculate_risk_score`:the eight checks in source order,
scores summed, issue strings concatenated, then the risk-level line
prepended.  The `except` fallback `(0, ["Error calculating risk score"])` is
unreachable here: every modelled step is total. -/
def calcRiskScore (p : CandidateProfile) : Nat × List Str :=
  let wk := p.work_experience
  let c1 := missingCheck p.personal_info p.education_and_certifications
  let c2 := overlapCheck wk.previous_job_titles
  let c3 := densityCheck p.skills_and_tools.skills wk.total_years_experience
  let c4 := stintsCheck wk.companies_worked_at wk.total_years_experience
  let c5 := progressionCheck wk.previous_job_titles
  let c6 := summaryCheck wk
  let c7 := mismatchCheck p.education_and_certifications wk.current_or_last_job_title
  let c8 := rapidCheck wk.previous_job_titles wk.total_years_experience
  let score := c1.1 + c2.1 + c3.1 + c4.1 + c5.1 + c6.1 + c7.1 + c8.1
  (score,
    (str "Risk Level: " ++ riskLevelName score ++ str " (" ++ natStr score ++ str "/10)") ::
      (c1.2 ++ c2.2 ++ c3.2 ++ c4.2 ++ c5.2 ++ c6.2 ++ c7.2 ++ c8.2))

/-! ## CandidateMatcher keyword phase (`pages/chat.py`) -/

structure SearchFilter where
  role : Option Str
  related_roles : List Str
  related_keywords : List Str
  location : Option Str
  required_skills : List Str
  experience_years_min : Option ℚ
deriving DecidableEq

/-- Keyword assembly of `refine_search_candidates`: role, related roles,
required skills, lowercased; each block is guarded by Python truthiness, so
an absent or empty field contributes nothing. -/
def keywordsOf (f : SearchFilter) : List Str :=
  (if pyTruthy f.role then [lowerStr (optVal f.role)] else []) ++
    (if f.related_roles.isEmpty then [] else f.related_roles.map lowerStr) ++
    (if f.required_skills.isEmpty then [] else f.required_skills.map lowerStr)

/-- One keyword query against a candidate's search blob.  Supabase `ilike`
with a pattern `'%X%'` whose body contains no wildcard is case-insensitive
containment of `X`; the source fills the body with `keyword` when
`len(keyword) >= 3` and with `|keyword|` otherwise. -/
def kwMatch (kw blob : Str) : Bool :=
  if 3 ≤ kw.length then isPartB (lowerStr kw) (lowerStr blob)
  else isPartB ('|' :: lowerStr kw ++ ['|']) (lowerStr blob)

/-- A corpus row: candidate id and precomputed `search_blob`. -/
structure CandidateRow where
  id : Nat
  search_blob : Str
deriving DecidableEq

/-- The keyword phase of `refine_search_candidates`: one corpus query per
keyword, id sets unioned; with no keywords at all, the whole corpus.
`matched_ids` is a Python set — only membership in the result is meaningful,
so the union is modelled as the concatenation of the per-keyword id lists. -/
def matchedIds (corpus : List CandidateRow) (f : SearchFilter) : List Nat :=
  let keywords := keywordsOf f
  if keywords.isEmpty then corpus.map (·.id)
  else
    (keywords.map fun kw =>
      (corpus.filter fun c => kwMatch kw c.search_blob).map (·.id)).flatten

/-- Pipe-delimited tokens of a search blob. -/
def pipeSplit : Str → List Str := splitCh (fun c => c == '|')

/-- `'|'.join(ts)` — the shape of a search blob with tokens `ts`. -/
def joinPipe : List Str → Str
  | [] => []
  | [w] => w
  | w :: ws => w ++ '|' :: joinPipe ws

/-! ## Outreach rate limiter (`pages/chat.py`) -/

/-- The rate limiter's session state (`last_outreach_time`,
`outreach_count`) together with the `st.cache_data(ttl=3600)` memo that the
deployed `can_generate_outreach` is wrapped in.  Times are epoch seconds;
association lists are consulted front-first, so updates prepend. -/
structure OutreachState where
  last_outreach_time : List (Nat × Nat)
  outreach_count : List (Nat × Nat)
  memo : List (Nat × Nat × Bool)
deriving DecidableEq

def alook (k : Nat) (l : List (Nat × Nat)) : Option Nat :=
  (l.find? fun e => e.1 == k).map (·.2)

def aset (k v : Nat) (l : List (Nat × Nat)) : List (Nat × Nat) := (k, v) :: l

def freshOutreach : OutreachState := ⟨[], [], []⟩

/-- The body of `can_generate_outreach`: reset the counter (and allow) after
more than an hour since the candidate's last request, else refuse at 5. -/
def canGenerateBody (st : OutreachState) (cid t : Nat) : Bool × OutreachState :=
  let last := (alook cid st.last_outreach_time).getD 0
  let count := (alook cid st.outreach_count).getD 0
  if 3600 < t - last then (true, {st with outreach_count := aset cid 0 st.outreach_count})
  else if 5 ≤ count then (false, st)
  else (true, st)

/-- `can_generate_outreach` as deployed: `@st.cache_data(ttl=3600)` returns
the memoized result for the same `candidate_id` for up to an hour without
running the body. -/
def canGenerateCached (st : OutreachState) (cid t : Nat) : Bool × OutreachState :=
  match st.memo.find? (fun e => e.1 == cid && t - e.2.1 < 3600) with
  | some e => (e.2.2, st)
  | none =>
      let out := canGenerateBody st cid t
      (out.1, {out.2 with memo := (cid, t, out.1) :: out.2.memo})

/-- `update_outreach_count`. -/
def updateOutreach (st : OutreachState) (cid t : Nat) : OutreachState :=
  { st with
    last_outreach_time := aset cid t st.last_outreach_time
    outreach_count := aset cid ((alook cid st.outreach_count).getD 0 + 1) st.outreach_count }

/-- One generate-outreach button press for candidate `cid` at time `t`: on
refusal the UI shows the rate-limit error and stops; on permission the
message is generated and `update_outreach_count` runs.  Returns whether
generation was permitted. -/
def outreachStep (st : OutreachState) (cid t : Nat) : Bool × OutreachState :=
  let out := canGenerateCached st cid t
  if out.1 then (true, updateOutreach out.2 cid t) else (false, out.2)

/-- Outcomes of a sequence of presses for one candidate. -/
def runOutreach (st : OutreachState) (cid : Nat) : List Nat → List Bool
  | [] => []
  | t :: ts =>
      let out := outreachStep st cid t
      out.1 :: runOutreach out.2 cid ts

/-! ## Claim C8 — all-null record means anonymization is a no-op -/

/-- **C8** If PII detection returns a record whose `full_name`, `email`,
`phone` and `address` fields are all null, `anonymize_text` returns the
input text character-for-character unchanged. -/
theorem anonymize_noop_when_all_null (pii : PIIRec) (text : Str)
    (h1 : pii.full_name = none) (h2 : pii.email = none) (h3 : pii.phone = none)
    (h4 : pii.address = none) : anonymizeWith pii text = text := by
  simp [anonymizeWith, anonStage3, anonStage2, anonStage1, applyRepl, h1, h2, h3, h4,
    pyTruthy, optVal]

/-- Witness for C8 at a concrete record and text. -/
theorem anonymize_noop_when_all_null_witness :
    (⟨none, none, none, none, defaultLoc⟩ : PIIRec).full_name = none ∧
      anonymizeWith ⟨none, none, none, none, defaultLoc⟩ (str "Resume body text.") =
        str "Resume body text." :=
  ⟨rfl, anonymize_noop_when_all_null ⟨none, none, none, none, defaultLoc⟩
    (str "Resume body text.") rfl rfl rfl rfl⟩

/-! ## Claim C5 — the deployed rate limiter never rejects the sixth call -/

/-- `can_generate_outreach` without the `st.cache_data` decorator, as the
spec describes the limiter. -/
def outreachStepNoCache (st : OutreachState) (cid t : Nat) : Bool × OutreachState :=
  let out := canGenerateBody st cid t
  if out.1 then (true, updateOutreach out.2 cid t) else (false, out.2)

def runOutreachNoCache (st : OutreachState) (cid : Nat) : List Nat → List Bool
  | [] => []
  | t :: ts =>
      let out := outreachStepNoCache st cid t
      out.1 :: runOutreachNoCache out.2 cid ts

/-- **C5** Six presses for the same candidate within one hour, from a fresh
session.  The limiter body alone would permit calls 1-5 and reject call 6,
exactly as claimed — but `can_generate_outreach` is wrapped in
`@st.cache_data(ttl=3600)`, which memoizes its first `True` per candidate
for an hour, so the deployed code permits all six calls: the sixth is not
rejected. -/
theorem rate_limit_sixth_call_permitted :
    runOutreach freshOutreach 7
        [1000000, 1000010, 1000020, 1000030, 1000040, 1000050] =
      [true, true, true, true, true, true] ∧
    runOutreachNoCache freshOutreach 7
        [1000000, 1000010, 1000020, 1000030, 1000040, 1000050] =
      [true, true, true, true, true, false] := by
  constructor <;> decide

/-! ## Claim C2 — the insufficient-detail penalty ignores the summary -/

/-- A concrete profile whose `additional_info.summary_statement` is far
longer than 100 characters (and with no other data gaps). -/
def profileLongSummary : CandidateProfile :=
  { personal_info :=
      { full_name := some (str "[NAME]"), email := some (str "[EMAIL]"),
        phone := some (str "[PHONE]"), location := some (str "Sydney"),
        state := some (str "NSW"), country := some (str "Australia"),
        linkedin_url := none }
    work_experience :=
      { total_years_experience := none,
        current_or_last_job_title := some (str "Engineer"),
        previous_job_titles := [], companies_worked_at := [],
        employment_type := none, availability := none }
    skills_and_tools := { skills := [], skill_categories := [], tools_technologies := [] }
    education_and_certifications :=
      { education := [str "BSc Computer Science"], degree_level := [str "Bachelors"],
        certifications := [] }
    additional_info :=
      { summary_statement := some (str "Seasoned software engineer with a decade of experience designing, building and operating large scale distributed systems and data platforms."),
        languages_spoken := [] } }

set_option maxRecDepth 10000 in
/-- **C2** A profile whose `additional_info.summary_statement` is 140
characters long still receives the `+1` insufficient-detail penalty and its
issue string: `calculate_risk_score` reads `summary_statement` from
`work_experience`, where the pipeline never stores it, so the lookup yields
`''` regardless of the actual summary. -/
theorem summary_penalty_ignores_summary :
    100 ≤ (optVal profileLongSummary.additional_info.summary_statement).length ∧
      (summaryCheck profileLongSummary.work_experience).1 = 1 ∧
      str "Insufficient details in resume" ∈ (calcRiskScore profileLongSummary).2 := by
  decide

/-! ## Claim C6 — score bounds and the risk-level line -/

/-- The spec's level mapping: 0-2 Low, 3-5 Medium, 6-8 High, 9-10 Very
High. -/
def specLevelName (score : Nat) : Str :=
  if score ≤ 2 then str "Low"
  else if score ≤ 5 then str "Medium"
  else if score ≤ 8 then str "High"
  else str "Very High"

theorem riskLevelName_eq_spec (s : Nat) : riskLevelName s = specLevelName s := by
  unfold riskLevelName specLevelName
  split_ifs <;> first | rfl | (exfalso; omega)

theorem missingCheck_le (pinfo : PersonalInfo) (ed : EducationCerts) :
    (missingCheck pinfo ed).1 ≤ 1 := by
  simp only [missingCheck]
  split_ifs <;> simp

theorem overlapCheck_le (titles : List Str) : (overlapCheck titles).1 ≤ 2 := by
  unfold overlapCheck
  split <;> simp

theorem densityCheck_le (skills : List Str) (years : Option ℚ) :
    (densityCheck skills years).1 ≤ 1 := by
  unfold densityCheck
  rcases years with _ | y
  · simp
  · simp only
    split_ifs <;> simp

theorem stintsCheck_le (companies : List Str) (years : Option ℚ) :
    (stintsCheck companies years).1 ≤ 2 := by
  unfold stintsCheck
  split <;> simp

theorem progressionCheck_le (titles : List Str) : (progressionCheck titles).1 ≤ 1 := by
  unfold progressionCheck
  split <;> simp

theorem summaryCheck_le (wk : WorkExperience) : (summaryCheck wk).1 ≤ 1 := by
  simp only [summaryCheck]
  split_ifs <;> simp

theorem mismatchCheck_le (ed : EducationCerts) (ct : Option Str) :
    (mismatchCheck ed ct).1 ≤ 1 := by
  simp only [mismatchCheck]
  split_ifs <;> simp

theorem rapidCheck_le (titles : List Str) (years : Option ℚ) :
    (rapidCheck titles years).1 ≤ 1 := by
  unfold rapidCheck
  split <;> simp

/-- **C6** For every profile: `0 ≤ score ≤ 10`, the issue list is non-empty,
and its first element is exactly the risk-level line with the documented
0-2 Low / 3-5 Medium / 6-8 High / 9-10 Very High mapping. -/
theorem risk_score_bounds_and_level (p : CandidateProfile) :
    0 ≤ (calcRiskScore p).1 ∧ (calcRiskScore p).1 ≤ 10 ∧
      (calcRiskScore p).2 ≠ [] ∧
      (calcRiskScore p).2.head? =
        some (str "Risk Level: " ++ specLevelName (calcRiskScore p).1 ++ str " (" ++
          natStr (calcRiskScore p).1 ++ str "/10)") := by
  have h1 := missingCheck_le p.personal_info p.education_and_certifications
  have h2 := overlapCheck_le p.work_experience.previous_job_titles
  have h3 := densityCheck_le p.skills_and_tools.skills
    p.work_experience.total_years_experience
  have h4 := stintsCheck_le p.work_experience.companies_worked_at
    p.work_experience.total_years_experience
  have h5 := progressionCheck_le p.work_experience.previous_job_titles
  have h6 := summaryCheck_le p.work_experience
  have h7 := mismatchCheck_le p.education_and_certifications
    p.work_experience.current_or_last_job_title
  have h8 := rapidCheck_le p.work_experience.previous_job_titles
    p.work_experience.total_years_experience
  refine ⟨Nat.zero_le _, ?_, ?_, ?_⟩
  · simp only [calcRiskScore]
    omega
  · simp [calcRiskScore]
  · simp only [calcRiskScore, List.head?_cons, riskLevelName_eq_spec]

/-! ## Claim C3 — duplicate-title monotonicity -/

theorem overlapCheck_eq_zero {titles : List Str} (h : titles.Nodup) :
    (overlapCheck titles).1 = 0 := by
  have hd : titles.dedup = titles := List.dedup_eq_self.mpr h
  simp [overlapCheck, hd]

theorem overlapCheck_eq_two {titles : List Str} (h : ¬ titles.Nodup) :
    (overlapCheck titles).1 = 2 := by
  have hlt : titles.dedup.length < titles.length := by
    rcases Nat.lt_or_ge titles.dedup.length titles.length with hlt | hge
    · exact hlt
    · exact absurd
        (List.dedup_eq_self.mp ((List.dedup_sublist titles).eq_of_length
          (Nat.le_antisymm (List.dedup_sublist titles).length_le hge))) h
  simp [overlapCheck, hlt]

/-- The insufficient-detail penalty is 1 for every work-experience record:
the summary lookup hits the absent key. -/
theorem summaryCheck_eq_one (wk : WorkExperience) : (summaryCheck wk).1 = 1 := by
  simp [summaryCheck, summaryLookup]

theorem rapidCheck_mono (titles : List Str) (x : Str) (i : Nat) (years : Option ℚ) :
    (rapidCheck titles years).1 ≤
      (rapidCheck (titles.take i ++ x :: titles.drop i) years).1 := by
  have hlen : (titles.take i ++ x :: titles.drop i).length = titles.length + 1 := by
    simp only [List.length_append, List.length_cons, List.length_take, List.length_drop]
    omega
  simp only [rapidCheck]
  split_ifs with h1 h2
  · exact le_rfl
  · exact absurd ⟨by rw [hlen]; exact Nat.lt_succ_of_lt h1.1, h1.2⟩ h2
  · simp
  · exact le_rfl

/-- **C3 (amended)** Inserting one duplicate of an existing entry of
`previous_job_titles`, at any position, into a list that previously
contained no duplicate entries never decreases the risk score: the overlap
penalty (+2) switches on and outweighs the single point the progression
check can lose; the rapid-progression check cannot switch off when the list
grows; no other check depends on the titles. -/
theorem risk_mono_duplicate_of_nodup (p : CandidateProfile) (x : Str) (i : Nat)
    (hx : x ∈ p.work_experience.previous_job_titles)
    (hnd : p.work_experience.previous_job_titles.Nodup) :
    (calcRiskScore p).1 ≤
      (calcRiskScore
        { p with
          work_experience :=
            { p.work_experience with
              previous_job_titles :=
                p.work_experience.previous_job_titles.take i ++
                  x :: p.work_experience.previous_job_titles.drop i } }).1 := by
  have hdup : ¬ (p.work_experience.previous_job_titles.take i ++
      x :: p.work_experience.previous_job_titles.drop i).Nodup := by
    intro hnd2
    rw [List.nodup_append] at hnd2
    obtain ⟨_, hnd3, hdisj⟩ := hnd2
    have hx2 := hx
    rw [← List.take_append_drop i p.work_experience.previous_job_titles] at hx2
    rcases List.mem_append.mp hx2 with hmem | hmem
    · exact hdisj hmem (List.mem_cons_self x _)
    · exact (List.nodup_cons.mp hnd3).1 hmem
  have e1 := overlapCheck_eq_zero hnd
  have e2 := overlapCheck_eq_two hdup
  have e3 := progressionCheck_le p.work_experience.previous_job_titles
  have e4 := rapidCheck_mono p.work_experience.previous_job_titles x i
    p.work_experience.total_years_experience
  simp only [calcRiskScore, summaryCheck_eq_one]
  omega

/-- The concrete profile of the C3 counterexample: duplicated senior titles
followed by a non-senior final title. -/
def profRiskBase : CandidateProfile :=
  { personal_info :=
      { full_name := some (str "[NAME]"), email := some (str "[EMAIL]"),
        phone := some (str "[PHONE]"), location := some (str "Sydney"),
        state := none, country := some (str "Australia"), linkedin_url := none }
    work_experience :=
      { total_years_experience := none,
        current_or_last_job_title := some (str "Analyst"),
        previous_job_titles :=
          [str "Senior Developer", str "Senior Developer", str "Analyst"],
        companies_worked_at := [], employment_type := none, availability := none }
    skills_and_tools := { skills := [], skill_categories := [], tools_technologies := [] }
    education_and_certifications :=
      { education := [str "BSc"], degree_level := [], certifications := [] }
    additional_info := { summary_statement := none, languages_spoken := [] } }

/-- `profRiskBase` with one more duplicate appended at the end. -/
def profRiskMore : CandidateProfile :=
  { profRiskBase with
    work_experience :=
      { profRiskBase.work_experience with
        previous_job_titles :=
          profRiskBase.work_experience.previous_job_titles ++ [str "Senior Developer"] } }

/-- **C3 (counterexample)** Appending a duplicate of the existing entry
`Senior Developer` lowers the risk score from 5 to 4: the overlap penalty
was already incurred, and the duplicate makes the final title senior,
switching off the inconsistent-progression penalty. -/
theorem risk_mono_counterexample :
    str "Senior Developer" ∈ profRiskBase.work_experience.previous_job_titles ∧
      profRiskMore.work_experience.previous_job_titles =
        profRiskBase.work_experience.previous_job_titles ++ [str "Senior Developer"] ∧
      (calcRiskScore profRiskBase).1 = 5 ∧ (calcRiskScore profRiskMore).1 = 4 := by
  decide

/-- Witness profile for the amended C3: a single senior title, no
duplicates. -/
def profRiskW : CandidateProfile :=
  { profRiskBase with
    work_experience :=
      { profRiskBase.work_experience with
        previous_job_titles := [str "Senior Developer"] } }

/-- Witness for the amended C3 at a concrete profile, duplicate and
position. -/
theorem risk_mono_duplicate_witness :
    (str "Senior Developer" ∈ profRiskW.work_experience.previous_job_titles ∧
        profRiskW.work_experience.previous_job_titles.Nodup) ∧
      (calcRiskScore profRiskW).1 ≤
        (calcRiskScore
          { profRiskW with
            work_experience :=
              { profRiskW.work_experience with
                previous_job_titles :=
                  profRiskW.work_experience.previous_job_titles.take 1 ++
                    str "Senior Developer" ::
                      profRiskW.work_experience.previous_job_titles.drop 1 } }).1 :=
  ⟨⟨by decide, by decide⟩,
    risk_mono_duplicate_of_nodup profRiskW (str "Senior Developer") 1
      (by decide) (by decide)⟩

/-! ## Claim C7 — what `is_valid_name` accepts -/

/-- **C7 (amended)** `is_valid_name` accepts exactly the spans that are not
in the false-positive lexicon, contain at least two whitespace-separated
words, contain no digit and none of the regex's punctuation characters
(`rejectPunct` — which omits `:`, backquote and `~`), and are between 4 and
50 characters long. -/
theorem isValidName_iff (name : Str) :
    isValidName name = true ↔
      lowerStr name ∉ falsePositives ∧ 2 ≤ (wordsOf name).length ∧
        (∀ c ∈ name, ¬ ('0' ≤ c ∧ c ≤ '9') ∧ c ∉ rejectPunct) ∧
        4 ≤ name.length ∧ name.length ≤ 50 := by
  unfold isValidName
  split_ifs with h1 h2 h3 h4
  · simp only [false_iff]
    intro hc
    exact hc.1 (List.elem_iff.mp h1)
  · simp only [false_iff]
    intro hc
    exact absurd hc.2.1 (by omega)
  · simp only [false_iff]
    intro hc
    rcases List.any_eq_true.mp h3 with ⟨c, hcmem, hcbad⟩
    rcases hc.2.2.1 c hcmem with ⟨hd, hpn⟩
    simp only [badNameChar, Bool.or_eq_true, Bool.and_eq_true, decide_eq_true_eq] at hcbad
    rcases hcbad with ⟨hd1, hd2⟩ | hmem
    · exact hd ⟨hd1, hd2⟩
    · exact hpn (List.elem_iff.mp hmem)
  · simp only [false_iff]
    intro hc
    simp only [Bool.or_eq_true, decide_eq_true_eq] at h4
    omega
  · simp only [true_iff]
    simp only [Bool.or_eq_true, decide_eq_true_eq, not_or] at h4
    refine ⟨fun hmem => h1 (List.elem_iff.mpr hmem), by omega, ?_, by omega, by omega⟩
    intro c hcmem
    have hb : badNameChar c = false := by
      by_contra hcb
      exact h3 (List.any_eq_true.mpr ⟨c, hcmem, by simpa using hcb⟩)
    simp only [badNameChar, Bool.or_eq_false_iff, Bool.and_eq_false_iff] at hb
    constructor
    · intro hdig
      rcases hb.1 with hl | hr
      · exact absurd (decide_eq_true hdig.1) (by simpa using hl)
      · exact absurd (decide_eq_true hdig.2) (by simpa using hr)
    · intro hmem
      exact absurd (List.elem_iff.mpr hmem) (by simpa using hb.2)

/-- ASCII punctuation — the claim's "punctuation characters". -/
def asciiPunct (c : Char) : Bool :=
  (33 ≤ c.toNat && c.toNat ≤ 47) || (58 ≤ c.toNat && c.toNat ≤ 64) ||
    (91 ≤ c.toNat && c.toNat ≤ 96) || (123 ≤ c.toNat && c.toNat ≤ 126)

/-- **C7 (counterexample)** `John: Smith` contains the punctuation character
`:` (not a space), yet `is_valid_name` accepts it: the rejection regex's
character class omits the colon. -/
theorem isValidName_counterexample :
    isValidName (str "John: Smith") = true ∧
      ((str "John: Smith").any fun c => asciiPunct c && c != ' ') = true := by
  decide

/-! ## Claim C10 — the last plain LOCATION span wins wholesale -/

/-- The values of the LOCATION spans not classified as detailed addresses,
in recognizer order. -/
def plainLocSpans (isDetailed : Str → Bool) (results : List RecogResult) : List Str :=
  results.filterMap fun r =>
    match r.entity_type with
    | EntityType.LOCATION => if isDetailed r.value then none else some r.value
    | _ => none

/-- The location determined by the last plain LOCATION span, defaulting
when there is none. -/
def lastLoc (isDetailed : Str → Bool) (results : List RecogResult)
    (dflt : LocationRec) : LocationRec :=
  match (plainLocSpans isDetailed results).getLast? with
  | some v => extractLocationComponents v
  | none => dflt

theorem getLast?_cons_some {α : Type} (x : α) {l : List α} {v : α}
    (h : l.getLast? = some v) : (x :: l).getLast? = some v := by
  rw [show x :: l = [x] ++ l from rfl, List.getLast?_append, h]
  rfl

/-- Through the result loop, the final location is the one determined by
the last plain LOCATION span (or the accumulator's when there is none):
each plain span overwrites all three components at once. -/
theorem foldl_piiStep_location (isDetailed : Str → Bool) (results : List RecogResult)
    (acc : PIIRec × List Str) :
    (results.foldl (piiStep isDetailed) acc).1.location =
      lastLoc isDetailed results acc.1.location := by
  induction results generalizing acc with
  | nil => rfl
  | cons r rs ih =>
    rw [List.foldl_cons, ih]
    rcases r with ⟨ty, v⟩
    cases ty with
    | PERSON =>
      unfold lastLoc
      rw [show plainLocSpans isDetailed (⟨EntityType.PERSON, v⟩ :: rs) =
          plainLocSpans isDetailed rs from rfl]
      cases (plainLocSpans isDetailed rs).getLast?
      · simp only [piiStep]
        split <;> rfl
      · rfl
    | EMAIL_ADDRESS =>
      unfold lastLoc
      rw [show plainLocSpans isDetailed (⟨EntityType.EMAIL_ADDRESS, v⟩ :: rs) =
          plainLocSpans isDetailed rs from rfl]
      cases (plainLocSpans isDetailed rs).getLast? <;> rfl
    | PHONE_NUMBER =>
      unfold lastLoc
      rw [show plainLocSpans isDetailed (⟨EntityType.PHONE_NUMBER, v⟩ :: rs) =
          plainLocSpans isDetailed rs from rfl]
      cases (plainLocSpans isDetailed rs).getLast? <;> rfl
    | LOCATION =>
      by_cases hdet : isDetailed v
      · unfold lastLoc
        rw [show plainLocSpans isDetailed (⟨EntityType.LOCATION, v⟩ :: rs) =
            plainLocSpans isDetailed rs from by
          simp [plainLocSpans, List.filterMap_cons, hdet]]
        cases (plainLocSpans isDetailed rs).getLast? <;> simp [piiStep, hdet]
      · have hspans : plainLocSpans isDetailed (⟨EntityType.LOCATION, v⟩ :: rs) =
            v :: plainLocSpans isDetailed rs := by
          simp [plainLocSpans, List.filterMap_cons, hdet]
        unfold lastLoc
        rw [hspans]
        cases hl : (plainLocSpans isDetailed rs).getLast? with
        | none =>
          rw [List.getLast?_eq_none_iff.mp hl]
          simp [piiStep, hdet]
        | some v2 =>
          rw [getLast?_cons_some v hl]

/-- **C10** Among the LOCATION spans not classified as detailed addresses,
the last one in recognizer-result order fully determines the PII record's
location: each such span overwrites all three components wholesale, so a
last span with fewer than 3 comma/semicolon-separated parts resets the
country back to the default `Australia`, and a last span with exactly one
part also resets the state to null, discarding earlier spans' values. -/
theorem location_last_plain_span_wins (isDetailed : Str → Bool)
    (results : List RecogResult) (v : Str)
    (hlast : (plainLocSpans isDetailed results).getLast? = some v) :
    (processResults isDetailed results).location = extractLocationComponents v ∧
      ((splitCh (fun c => c == ',' || c == ';') v).length < 3 →
        (processResults isDetailed results).location.country = str "Australia") ∧
      ((splitCh (fun c => c == ',' || c == ';') v).length = 1 →
        (processResults isDetailed results).location.state = none) := by
  have hloc : (processResults isDetailed results).location =
      extractLocationComponents v := by
    unfold processResults
    have h := foldl_piiStep_location isDetailed results (emptyPII, [])
    unfold lastLoc at h
    rw [hlast] at h
    cases hh : (List.foldl (piiStep isDetailed) (emptyPII, []) results).2.head? <;>
      simp [hh, h]
  refine ⟨hloc, ?_, ?_⟩
  · intro hparts
    rw [hloc]
    unfold extractLocationComponents
    simp only
    rw [List.getElem?_eq_none (by simpa using by omega)]
    rfl
  · intro hparts
    rw [hloc]
    unfold extractLocationComponents
    simp only
    rw [List.getElem?_eq_none (by simpa using by omega)]

/-- The witness's recognizer results: an earlier three-part span, then a
bare city. -/
def locResults : List RecogResult :=
  [⟨EntityType.LOCATION, str "12 Baker Street, NSW, New Zealand"⟩,
   ⟨EntityType.LOCATION, str "Sydney"⟩]

/-- Witness for C10: the later bare `Sydney` span discards the earlier
span's state and country, resetting them to `none` / `Australia`. -/
theorem location_last_plain_span_wins_witness :
    (plainLocSpans (fun _ => false) locResults).getLast? = some (str "Sydney") ∧
      (processResults (fun _ => false) locResults).location =
        extractLocationComponents (str "Sydney") ∧
      (processResults (fun _ => false) locResults).location.country = str "Australia" ∧
      (processResults (fun _ => false) locResults).location.state = none := by
  have h := location_last_plain_span_wins (fun _ => false) locResults (str "Sydney")
    (by decide)
  exact ⟨by decide, h.1, h.2.1 (by decide), h.2.2 (by decide)⟩

/-! ## Claim C9 — `clean_text` normalization -/

/-- Characters kept by the filter that are not whitespace have code point
at least 32 (`\n\r\t` are whitespace). -/
theorem keep_not_ws_ge32 {c : Char} (hk : keepChar c = true) (hw : isPyWs c = false) :
    32 ≤ c.toNat := by
  simp only [keepChar, Bool.or_eq_true, decide_eq_true_eq, beq_iff_eq] at hk
  rcases hk with ((h | rfl) | rfl) | rfl
  · exact h
  · exact absurd hw (by decide)
  · exact absurd hw (by decide)
  · exact absurd hw (by decide)

/-- Soundness of the splitter: every chunk is non-empty, whitespace-free,
and drawn from the accumulator or the input. -/
theorem wordsAux_sound (s : Str) : ∀ (acc : Str), (∀ c ∈ acc, isPyWs c = false) →
    ∀ w ∈ wordsAux acc s, w ≠ [] ∧ ∀ c ∈ w, isPyWs c = false ∧ (c ∈ acc ∨ c ∈ s) := by
  induction s with
  | nil =>
    intro acc hacc w hw
    simp only [wordsAux] at hw
    split at hw
    · simp at hw
    · rename_i hne
      simp only [List.mem_singleton] at hw
      subst hw
      refine ⟨by simpa using fun h => hne (by simp [h]), ?_⟩
      intro c hc
      rw [List.mem_reverse] at hc
      exact ⟨hacc c hc, Or.inl hc⟩
  | cons d ds ih =>
    intro acc hacc w hw
    simp only [wordsAux] at hw
    by_cases hws : isPyWs d
    · rw [if_pos hws] at hw
      by_cases hemp : acc.isEmpty
      · rw [if_pos hemp] at hw
        rcases ih [] (by simp) w hw with ⟨h1, h2⟩
        refine ⟨h1, fun c hc => ⟨(h2 c hc).1, Or.inr ?_⟩⟩
        rcases (h2 c hc).2 with h | h
        · exact absurd h (List.not_mem_nil c)
        · exact List.mem_cons_of_mem d h
      · rw [if_neg hemp] at hw
        rcases List.mem_cons.mp hw with rfl | hw2
        · refine ⟨by simpa using fun h => hemp (by simp [h]), ?_⟩
          intro c hc
          rw [List.mem_reverse] at hc
          exact ⟨hacc c hc, Or.inl hc⟩
        · rcases ih [] (by simp) w hw2 with ⟨h1, h2⟩
          refine ⟨h1, fun c hc => ⟨(h2 c hc).1, Or.inr ?_⟩⟩
          rcases (h2 c hc).2 with h | h
          · exact absurd h (List.not_mem_nil c)
          · exact List.mem_cons_of_mem d h
    · rw [if_neg hws] at hw
      have hacc2 : ∀ c ∈ d :: acc, isPyWs c = false := by
        intro c hc
        rcases List.mem_cons.mp hc with rfl | hc2
        · exact Bool.not_eq_true _ ▸ (by simpa using hws)
        · exact hacc c hc2
      rcases ih (d :: acc) hacc2 w hw with ⟨h1, h2⟩
      refine ⟨h1, fun c hc => ⟨(h2 c hc).1, ?_⟩⟩
      rcases (h2 c hc).2 with h | h
      · rcases List.mem_cons.mp h with rfl | h3
        · exact Or.inr (List.mem_cons_self c ds)
        · exact Or.inl h3
      · exact Or.inr (List.mem_cons_of_mem d h)

/-- Every character of `' '.join(ws)` is a space or comes from a chunk. -/
theorem joinSp_mem : ∀ (ws : List Str) (c : Char), c ∈ joinSp ws →
    (∃ w ∈ ws, c ∈ w) ∨ c = ' '
  | [], c, h => by simp [joinSp] at h
  | [w], c, h => Or.inl ⟨w, by simp, by simpa [joinSp] using h⟩
  | w :: v :: rest, c, h => by
    rw [show joinSp (w :: v :: rest) = w ++ ' ' :: joinSp (v :: rest) from rfl] at h
    rcases List.mem_append.mp h with h1 | h2
    · exact Or.inl ⟨w, by simp, h1⟩
    · rcases List.mem_cons.mp h2 with rfl | h3
      · exact Or.inr rfl
      · rcases joinSp_mem (v :: rest) c h3 with ⟨w2, hw2, hcw⟩ | rfl
        · exact Or.inl ⟨w2, List.mem_cons_of_mem w hw2, hcw⟩
        · exact Or.inr rfl

theorem joinSp_ne_nil : ∀ (ws : List Str), (∀ w ∈ ws, w ≠ []) → ws ≠ [] →
    joinSp ws ≠ []
  | [], h, hne => absurd rfl hne
  | [w], h, _ => by simpa [joinSp] using h w (by simp)
  | w :: v :: rest, h, _ => by
    rw [show joinSp (w :: v :: rest) = w ++ ' ' :: joinSp (v :: rest) from rfl]
    simp

/-- The head of the join is the head of some chunk. -/
theorem joinSp_head : ∀ (ws : List Str), (∀ w ∈ ws, w ≠ []) → ∀ c,
    (joinSp ws).head? = some c → ∃ w ∈ ws, w.head? = some c
  | [], _, c, h => by simp [joinSp] at h
  | [w], _, c, h => ⟨w, by simp, by simpa [joinSp] using h⟩
  | w :: v :: rest, hne, c, h => by
    rw [show joinSp (w :: v :: rest) = w ++ ' ' :: joinSp (v :: rest) from rfl] at h
    cases hwv : w with
    | nil => exact absurd hwv (hne w (by simp))
    | cons a w2 =>
      rw [hwv] at h
      simp only [List.cons_append, List.head?_cons, Option.some.injEq] at h
      exact ⟨a :: w2, List.mem_cons_self _ _, by simp [h]⟩

theorem getLast?_cons_of_ne_nil {α : Type} (x : α) {l : List α} (h : l ≠ []) :
    (x :: l).getLast? = l.getLast? := by
  rw [show x :: l = [x] ++ l from rfl, List.getLast?_append]
  cases hl : l.getLast? with
  | none => exact absurd (List.getLast?_eq_none_iff.mp hl) h
  | some y => rfl

/-- The last element of the join is the last of some chunk. -/
theorem joinSp_last : ∀ (ws : List Str), (∀ w ∈ ws, w ≠ []) → ∀ c,
    (joinSp ws).getLast? = some c → ∃ w ∈ ws, w.getLast? = some c
  | [], _, c, h => by simp [joinSp] at h
  | [w], _, c, h => ⟨w, by simp, by simpa [joinSp] using h⟩
  | w :: v :: rest, hne, c, h => by
    rw [show joinSp (w :: v :: rest) = w ++ ' ' :: joinSp (v :: rest) from rfl,
      List.getLast?_append] at h
    have hJ : joinSp (v :: rest) ≠ [] :=
      joinSp_ne_nil (v :: rest) (fun w2 hw2 => hne w2 (List.mem_cons_of_mem w hw2)) (by simp)
    rw [getLast?_cons_of_ne_nil ' ' hJ] at h
    cases hJl : (joinSp (v :: rest)).getLast? with
    | none => exact absurd (List.getLast?_eq_none_iff.mp hJl) hJ
    | some y =>
      rw [hJl] at h
      simp only [Option.or_some, Option.some.injEq] at h
      rcases joinSp_last (v :: rest)
        (fun w2 hw2 => hne w2 (List.mem_cons_of_mem w hw2)) y hJl with ⟨w2, hw2, hl2⟩
      exact ⟨w2, List.mem_cons_of_mem w hw2, by rw [hl2, h]⟩

/-- A whitespace-free chunk has no two adjacent whitespace characters. -/
theorem chain_nonws : ∀ (w : Str), (∀ c ∈ w, isPyWs c = false) →
    List.Chain' (fun a b => ¬ (isPyWs a = true ∧ isPyWs b = true)) w
  | [], _ => List.chain'_nil
  | [c], _ => by simp
  | a :: b :: rest, h => by
    rw [List.chain'_cons]
    refine ⟨fun hc => ?_, chain_nonws (b :: rest) fun c hc => h c (List.mem_cons_of_mem a hc)⟩
    rw [h a (by simp)] at hc
    exact Bool.false_ne_true hc.1

/-- The join of non-empty whitespace-free chunks has no two adjacent
whitespace characters: the inserted single spaces are bordered by chunk
characters. -/
theorem joinSp_chain : ∀ (ws : List Str),
    (∀ w ∈ ws, w ≠ [] ∧ ∀ c ∈ w, isPyWs c = false) →
    List.Chain' (fun a b => ¬ (isPyWs a = true ∧ isPyWs b = true)) (joinSp ws)
  | [], _ => List.chain'_nil
  | [w], h => chain_nonws w (h w (by simp)).2
  | w :: v :: rest, h => by
    rw [show joinSp (w :: v :: rest) = w ++ ' ' :: joinSp (v :: rest) from rfl]
    rw [List.chain'_append]
    have hrest : ∀ w2 ∈ v :: rest, w2 ≠ [] ∧ ∀ c ∈ w2, isPyWs c = false :=
      fun w2 hw2 => h w2 (List.mem_cons_of_mem w hw2)
    refine ⟨chain_nonws w (h w (by simp)).2, ?_, ?_⟩
    · rw [List.chain'_cons']
      refine ⟨?_, joinSp_chain (v :: rest) hrest⟩
      intro b hb hcontra
      rcases joinSp_head (v :: rest) (fun w2 hw2 => (hrest w2 hw2).1) b hb with ⟨w2, hw2, hh⟩
      have : b ∈ w2 := by
        cases w2 with
        | nil => simp at hh
        | cons a w3 =>
          simp only [List.head?_cons, Option.some.injEq] at hh
          exact hh ▸ List.mem_cons_self a w3
      rw [(hrest w2 hw2).2 b this] at hcontra
      exact Bool.false_ne_true hcontra.2
    · intro x hx y hy hcontra
      rcases List.mem_getLast?_eq_getLast hx with ⟨hne2, hx2⟩
      have hxw : x ∈ w := by
        rw [hx2]
        exact List.getLast_mem hne2
      rw [(h w (by simp)).2 x hxw] at hcontra
      exact Bool.false_ne_true hcontra.1

/-- Scanning a whitespace-free chunk just moves it into the accumulator. -/
theorem wordsAux_shift : ∀ (w : Str), (∀ c ∈ w, isPyWs c = false) → ∀ (acc s : Str),
    wordsAux acc (w ++ s) = wordsAux (w.reverse ++ acc) s
  | [], _, acc, s => by simp
  | c :: w', h, acc, s => by
    have hc : isPyWs c = false := h c (by simp)
    rw [List.cons_append]
    simp only [wordsAux, hc, Bool.false_eq_true, if_false]
    rw [wordsAux_shift w' (fun d hd => h d (List.mem_cons_of_mem c hd)) (c :: acc) s]
    simp [List.append_assoc]

/-- Hitting a space with a non-empty accumulator emits the pending chunk. -/
theorem wordsAux_at_space (acc : Str) (rest : Str) (hacc : acc ≠ []) :
    wordsAux acc (' ' :: rest) = acc.reverse :: wordsAux [] rest := by
  simp only [wordsAux]
  rw [if_pos (by decide), if_neg (by simpa using hacc)]

theorem wordsOf_word_append {w : Str} (hw : w ≠ []) (hnw : ∀ c ∈ w, isPyWs c = false)
    (rest : Str) : wordsOf (w ++ ' ' :: rest) = w :: wordsOf rest := by
  unfold wordsOf
  rw [wordsAux_shift w hnw [] (' ' :: rest), List.append_nil,
    wordsAux_at_space w.reverse rest (by simpa using hw)]
  simp

theorem wordsOf_single_word {w : Str} (hw : w ≠ []) (hnw : ∀ c ∈ w, isPyWs c = false) :
    wordsOf w = [w] := by
  have h := wordsAux_shift w hnw [] []
  rw [List.append_nil, List.append_nil] at h
  unfold wordsOf
  rw [h]
  simp only [wordsAux]
  rw [if_neg (by simpa using hw)]
  simp

/-- Splitting the single-space join of non-empty whitespace-free chunks
recovers exactly those chunks. -/
theorem wordsOf_joinSp : ∀ (ws : List Str),
    (∀ w ∈ ws, w ≠ [] ∧ ∀ c ∈ w, isPyWs c = false) → wordsOf (joinSp ws) = ws
  | [], _ => rfl
  | [w], h => wordsOf_single_word (h w (by simp)).1 (h w (by simp)).2
  | w :: v :: rest, h => by
    rw [show joinSp (w :: v :: rest) = w ++ ' ' :: joinSp (v :: rest) from rfl,
      wordsOf_word_append (h w (by simp)).1 (h w (by simp)).2,
      wordsOf_joinSp (v :: rest) (fun w2 hw2 => h w2 (List.mem_cons_of_mem w hw2))]

/-- **C9** `clean_text` output contains no character with code point below
32; its only whitespace character is the single space; it has no leading and
no trailing whitespace; no two adjacent characters are both whitespace
(interior whitespace runs collapse to one space, boundary runs are
stripped); and `clean_text` is idempotent. -/
theorem cleanText_props (t : Str) :
    ((cleanText t).all fun c => 32 ≤ c.toNat) = true ∧
      ((cleanText t).all fun c => !isPyWs c || c == ' ') = true ∧
      ((cleanText t).head?.all fun c => !isPyWs c) = true ∧
      ((cleanText t).getLast?.all fun c => !isPyWs c) = true ∧
      List.Chain' (fun a b => ¬ (isPyWs a = true ∧ isPyWs b = true)) (cleanText t) ∧
      cleanText (cleanText t) = cleanText t := by
  by_cases hemp : t.isEmpty
  · simp [cleanText, hemp]
  · have hw := wordsAux_sound (t.filter keepChar) [] (by simp)
    have hwords : ∀ w ∈ wordsOf (t.filter keepChar), w ≠ [] ∧ ∀ c ∈ w, isPyWs c = false :=
      fun w hmem => ⟨(hw w hmem).1, fun c hc => ((hw w hmem).2 c hc).1⟩
    have hkeep : ∀ w ∈ wordsOf (t.filter keepChar), ∀ c ∈ w, keepChar c = true := by
      intro w hmem c hc
      rcases ((hw w hmem).2 c hc).2 with h | h
      · exact absurd h (List.not_mem_nil c)
      · exact (List.mem_filter.mp h).2
    have hout : cleanText t = joinSp (wordsOf (t.filter keepChar)) := by
      simp [cleanText, hemp]
    refine ⟨?_, ?_, ?_, ?_, ?_, ?_⟩
    · simp only [List.all_eq_true, decide_eq_true_eq]
      intro c hc
      rw [hout] at hc
      rcases joinSp_mem _ c hc with ⟨w, hwmem, hcw⟩ | rfl
      · exact keep_not_ws_ge32 (hkeep w hwmem c hcw) ((hwords w hwmem).2 c hcw)
      · decide
    · simp only [List.all_eq_true, Bool.or_eq_true, Bool.not_eq_eq_eq_not, Bool.not_true,
        beq_iff_eq]
      intro c hc
      rw [hout] at hc
      rcases joinSp_mem _ c hc with ⟨w, hwmem, hcw⟩ | rfl
      · exact Or.inl ((hwords w hwmem).2 c hcw)
      · exact Or.inr rfl
    · cases hh : (cleanText t).head? with
      | none => rfl
      | some c =>
        rw [hout] at hh
        rcases joinSp_head _ (fun w hwmem => (hwords w hwmem).1) c hh with ⟨w, hwmem, hwh⟩
        have hcw : c ∈ w := by
          cases w with
          | nil => simp at hwh
          | cons a w2 =>
            simp only [List.head?_cons, Option.some.injEq] at hwh
            exact hwh ▸ List.mem_cons_self a w2
        simp [Option.all, (hwords w hwmem).2 c hcw]
    · cases hh : (cleanText t).getLast? with
      | none => rfl
      | some c =>
        rw [hout] at hh
        rcases joinSp_last _ (fun w hwmem => (hwords w hwmem).1) c hh with ⟨w, hwmem, hwl⟩
        rcases List.mem_getLast?_eq_getLast (show c ∈ w.getLast? from hwl) with ⟨hne2, hc2⟩
        have hcw : c ∈ w := by
          rw [hc2]
          exact List.getLast_mem hne2
        simp [Option.all, (hwords w hwmem).2 c hcw]
    · rw [hout]
      exact joinSp_chain _ hwords
    · rw [hout]
      by_cases hnil : joinSp (wordsOf (t.filter keepChar)) = []
      · rw [hnil]
        rfl
      · have hfilter : (joinSp (wordsOf (t.filter keepChar))).filter keepChar =
            joinSp (wordsOf (t.filter keepChar)) := by
          rw [List.filter_eq_self]
          intro c hc
          rcases joinSp_mem _ c hc with ⟨w, hwmem, hcw⟩ | rfl
          · exact hkeep w hwmem c hcw
          · decide
        unfold cleanText
        rw [if_neg (by simpa using hnil), hfilter, wordsOf_joinSp _ hwords]

/-! ## Claim C4 — keyword matching in candidate search -/

theorem char_toNat_ofNat {n : Nat} (h : n < 0xd800) : (Char.ofNat n).toNat = n := by
  simp only [Char.ofNat, Nat.isValidChar, h, Or.inl, dif_pos (Or.inl h)]
  simp [Char.ofNatAux, Char.toNat, UInt32.toNat, BitVec.toNat_ofNatLt]

/-- ASCII lowercasing never produces a pipe from a non-pipe. -/
theorem asciiLower_ne_pipe {c : Char} (h : c ≠ '|') : asciiLower c ≠ '|' := by
  unfold asciiLower
  split
  · rename_i hc
    intro heq
    have h90 : c.toNat ≤ 90 := hc.2
    have hofnat : (Char.ofNat (c.toNat + 32)).toNat = c.toNat + 32 :=
      char_toNat_ofNat (by omega)
    have h124 := congrArg Char.toNat heq
    rw [hofnat] at h124
    have hpipe : ('|').toNat = 124 := rfl
    omega
  · exact h

theorem lowerStr_pipe_free {kw : Str} (hk : '|' ∉ kw) : '|' ∉ lowerStr kw := by
  intro hmem
  rcases List.mem_map.mp hmem with ⟨c, hc, hlc⟩
  by_cases hcp : c = '|'
  · exact hk (hcp ▸ hc)
  · exact asciiLower_ne_pipe hcp hlc

/-- `re.split` at a separator occurrence splits the piece lists. -/
theorem splitCh_append_sep (sep : Char → Bool) {c : Char} (hc : sep c = true) :
    ∀ (x y : Str), splitCh sep (x ++ c :: y) = splitCh sep x ++ splitCh sep y
  | [], y => by simp [splitCh, hc]
  | d :: x', y => by
    by_cases hd : sep d = true
    · simp only [List.cons_append, splitCh, hd, if_true, List.append_eq]
      rw [splitCh_append_sep sep hc x' y]
    · simp only [List.cons_append, splitCh, List.append_eq]
      rw [if_neg (by simp [hd]), if_neg (by simp [hd]), splitCh_append_sep sep hc x' y]
      cases hsp : splitCh sep x' with
      | nil => exact absurd hsp (splitCh_ne_nil sep x')
      | cons t ts => simp

/-- A separator-free string is one whole piece. -/
theorem splitCh_sepfree (sep : Char → Bool) : ∀ (w : Str), (∀ c ∈ w, sep c = false) →
    splitCh sep w = [w]
  | [], _ => rfl
  | d :: w', h => by
    have hd : sep d = false := h d (by simp)
    simp only [splitCh, hd, Bool.false_eq_true, if_false]
    rw [splitCh_sepfree sep w' (fun c hc => h c (List.mem_cons_of_mem d hc))]

/-- Rebuilding the pipe-split pieces with `'|'` gives back the blob. -/
theorem joinPipe_splitCh (sep : Char → Bool) (hsep : ∀ c, sep c = true ↔ c = '|') :
    ∀ (s : Str), joinPipe (splitCh sep s) = s
  | [] => rfl
  | c :: cs => by
    by_cases hc : sep c = true
    · have hcp : c = '|' := (hsep c).mp hc
      simp only [splitCh, hc, if_true]
      cases hsp : splitCh sep cs with
      | nil => exact absurd hsp (splitCh_ne_nil sep cs)
      | cons t ts =>
        have hih := joinPipe_splitCh sep hsep cs
        rw [hsp] at hih
        rw [show joinPipe ([] :: t :: ts) = [] ++ '|' :: joinPipe (t :: ts) from rfl, hih,
          hcp]
        rfl
    · simp only [splitCh]
      rw [if_neg hc]
      cases hsp : splitCh sep cs with
      | nil => exact absurd hsp (splitCh_ne_nil sep cs)
      | cons t ts =>
        have hih := joinPipe_splitCh sep hsep cs
        rw [hsp] at hih
        cases ts with
        | nil =>
          rw [show joinPipe [t] = t from rfl] at hih
          rw [show joinPipe [c :: t] = c :: t from rfl, hih]
        | cons t2 ts2 =>
          rw [show joinPipe ((c :: t) :: t2 :: ts2) =
              (c :: t) ++ '|' :: joinPipe (t2 :: ts2) from rfl]
          rw [show joinPipe (t :: t2 :: ts2) = t ++ '|' :: joinPipe (t2 :: ts2) from rfl]
            at hih
          rw [← hih]
          simp

theorem joinPipe_pipeSplit (s : Str) : joinPipe (pipeSplit s) = s :=
  joinPipe_splitCh _ (fun c => by simp) s

theorem joinPipe_append : ∀ (xs ys : List Str), xs ≠ [] → ys ≠ [] →
    joinPipe (xs ++ ys) = joinPipe xs ++ '|' :: joinPipe ys
  | [], _, hx, _ => absurd rfl hx
  | [x], ys, _, hy => by
    cases ys with
    | nil => exact absurd rfl hy
    | cons y ys' => rfl
  | x :: x2 :: xs', ys, _, hy => by
    show joinPipe (x :: x2 :: (xs' ++ ys)) = joinPipe (x :: x2 :: xs') ++ '|' :: joinPipe ys
    rw [show joinPipe (x :: x2 :: (xs' ++ ys)) =
        x ++ '|' :: joinPipe (x2 :: (xs' ++ ys)) from rfl]
    rw [show joinPipe (x :: x2 :: xs') = x ++ '|' :: joinPipe (x2 :: xs') from rfl]
    rw [show (x2 :: (xs' ++ ys) : List Str) = (x2 :: xs') ++ ys from rfl]
    rw [joinPipe_append (x2 :: xs') ys (by simp) hy]
    simp

/-- For a pipe-free keyword, the blob contains `|kw|` exactly when `kw` is a
pipe-delimited token at an interior position (neither first nor last). -/
theorem pipe_token_iff {kw blob : Str} (hk : '|' ∉ kw) :
    IsPart ('|' :: kw ++ ['|']) blob ↔
      ∃ pre post, pipeSplit blob = pre ++ kw :: post ∧ pre ≠ [] ∧ post ≠ [] := by
  constructor
  · rintro ⟨a, b, hab⟩
    have h1 : pipeSplit blob = pipeSplit a ++ (pipeSplit kw ++ pipeSplit b) := by
      rw [hab]
      unfold pipeSplit
      rw [show a ++ ('|' :: kw ++ ['|']) ++ b = a ++ '|' :: (kw ++ '|' :: b) from by simp,
        splitCh_append_sep _ (by simp) a (kw ++ '|' :: b),
        splitCh_append_sep _ (by simp) kw b]
    rw [show pipeSplit kw = [kw] from
      splitCh_sepfree _ kw (fun c hc => beq_eq_false_iff_ne.mpr (fun h => hk (h ▸ hc)))] at h1
    exact ⟨pipeSplit a, pipeSplit b, by simpa using h1,
      splitCh_ne_nil _ a, splitCh_ne_nil _ b⟩
  · rintro ⟨pre, post, hsp, hpre, hpost⟩
    have hblob : blob = joinPipe (pre ++ kw :: post) := by
      rw [← hsp, joinPipe_pipeSplit]
    rw [hblob, joinPipe_append pre (kw :: post) hpre (by simp),
      show (kw :: post : List Str) = [kw] ++ post from rfl,
      joinPipe_append [kw] post (by simp) hpost,
      show joinPipe [kw] = kw from rfl]
    exact ⟨joinPipe pre, joinPipe post, by simp⟩

/-- One keyword query, characterized: substring for length ≥ 3, interior
pipe-delimited token for shorter keywords. -/
theorem kwMatch_iff {kw blob : Str} (hk : '|' ∉ lowerStr kw) :
    kwMatch kw blob = true ↔
      (3 ≤ kw.length ∧ IsPart (lowerStr kw) (lowerStr blob)) ∨
        (kw.length < 3 ∧ ∃ pre post,
          pipeSplit (lowerStr blob) = pre ++ lowerStr kw :: post ∧
          pre ≠ [] ∧ post ≠ []) := by
  unfold kwMatch
  split_ifs with h3
  · rw [isPartB_iff]
    constructor
    · exact fun h => Or.inl ⟨h3, h⟩
    · rintro (⟨_, h⟩ | ⟨hlt, _⟩)
      · exact h
      · omega
  · rw [isPartB_iff, pipe_token_iff hk]
    constructor
    · exact fun h => Or.inr ⟨by omega, h⟩
    · rintro (⟨hge, _⟩ | ⟨_, h⟩)
      · omega
      · exact h

/-- **C4 (amended)** Membership in the keyword-matched candidate set: with
no keywords at all the entire corpus matches; otherwise a candidate matches
when some keyword from role/related_roles/required_skills matches its blob —
by case-insensitive substring when the keyword has length ≥ 3, and as a
standalone pipe-delimited token at an *interior* position when shorter (the
pattern `'%|kw|%'` does not match the first or last token of the blob). -/
theorem matchedIds_iff (corpus : List CandidateRow) (f : SearchFilter)
    (hkw : ∀ kw ∈ keywordsOf f, '|' ∉ kw) (cid : Nat) :
    cid ∈ matchedIds corpus f ↔
      (keywordsOf f = [] ∧ ∃ c ∈ corpus, c.id = cid) ∨
        (∃ kw ∈ keywordsOf f, ∃ c ∈ corpus, c.id = cid ∧
          ((3 ≤ kw.length ∧ IsPart (lowerStr kw) (lowerStr c.search_blob)) ∨
            (kw.length < 3 ∧ ∃ pre post,
              pipeSplit (lowerStr c.search_blob) = pre ++ lowerStr kw :: post ∧
              pre ≠ [] ∧ post ≠ []))) := by
  unfold matchedIds
  by_cases hkempty : (keywordsOf f).isEmpty
  · rw [if_pos hkempty]
    have hke : keywordsOf f = [] := List.isEmpty_iff.mp hkempty
    constructor
    · intro hmem
      rcases List.mem_map.mp hmem with ⟨c, hc, hid⟩
      exact Or.inl ⟨hke, c, hc, hid⟩
    · rintro (⟨_, c, hc, hid⟩ | ⟨kw, hkwmem, _⟩)
      · exact List.mem_map.mpr ⟨c, hc, hid⟩
      · exact absurd (hke ▸ hkwmem) (List.not_mem_nil kw)
  · rw [if_neg hkempty]
    have hkne : keywordsOf f ≠ [] := fun h => hkempty (by simp [h])
    constructor
    · intro hmem
      rcases List.mem_flatten.mp hmem with ⟨ids, hids, hcid⟩
      rcases List.mem_map.mp hids with ⟨kw, hkwmem, rfl⟩
      rcases List.mem_map.mp hcid with ⟨c, hcf, hcidv⟩
      rcases List.mem_filter.mp hcf with ⟨hcc, hmatch⟩
      exact Or.inr ⟨kw, hkwmem, c, hcc, hcidv,
        (kwMatch_iff (lowerStr_pipe_free (hkw kw hkwmem))).mp hmatch⟩
    · rintro (⟨hke, _⟩ | ⟨kw, hkwmem, c, hcc, hcid, hcond⟩)
      · exact absurd hke hkne
      · exact List.mem_flatten.mpr ⟨_, List.mem_map.mpr ⟨kw, hkwmem, rfl⟩,
          List.mem_map.mpr ⟨c, List.mem_filter.mpr ⟨hcc,
            (kwMatch_iff (lowerStr_pipe_free (hkw kw hkwmem))).mpr hcond⟩, hcid⟩⟩

/-- The counterexample corpus: one candidate whose blob starts with the
standalone token `go`. -/
def goCorpus : List CandidateRow := [⟨1, str "go|golang|react"⟩]

/-- A filter whose only keyword is the 2-character `go`. -/
def goFilter : SearchFilter := ⟨some (str "go"), [], [], none, [], none⟩

/-- **C4 (counterexample)** With keyword `go` (length < 3) and blob
`go|golang|react`, whose *first* pipe-delimited token is exactly `go`, the
query pattern `%|go|%` does not match and the candidate is not returned —
contradicting the claim that first/last standalone tokens are matched. -/
theorem matchedIds_counterexample :
    matchedIds goCorpus goFilter = [] ∧
      (pipeSplit (str "go|golang|react")).head? = some (str "go") := by
  decide

/-- Witness filter for the amended C4: the 6-character keyword `golang`. -/
def golangFilter : SearchFilter := ⟨some (str "golang"), [], [], none, [], none⟩

/-- Witness for the amended C4 at a concrete corpus, filter and id. -/
theorem matchedIds_iff_witness :
    (∀ kw ∈ keywordsOf golangFilter, '|' ∉ kw) ∧
      (1 ∈ matchedIds goCorpus golangFilter ↔
        (keywordsOf golangFilter = [] ∧ ∃ c ∈ goCorpus, c.id = 1) ∨
          (∃ kw ∈ keywordsOf golangFilter, ∃ c ∈ goCorpus, c.id = 1 ∧
            ((3 ≤ kw.length ∧ IsPart (lowerStr kw) (lowerStr c.search_blob)) ∨
              (kw.length < 3 ∧ ∃ pre post,
                pipeSplit (lowerStr c.search_blob) = pre ++ lowerStr kw :: post ∧
                pre ≠ [] ∧ post ≠ [])))) :=
  ⟨by decide, matchedIds_iff goCorpus golangFilter (by decide) 1⟩

/-! ## Claim C1 — PII round-trip containment -/

theorem pyTruthy_ne_nil {field : Option Str} (hf : pyTruthy field = true) :
    optVal field ≠ [] := by
  intro h
  rw [pyTruthy, h] at hf
  simp at hf

/-- Replacing a whole-string occurrence: `p.replace(p, r) == r`. -/
theorem replaceAll_self {p : Str} (r : Str) (hp : p ≠ []) : replaceAll p r p = r := by
  cases p with
  | nil => exact absurd rfl hp
  | cons c cs =>
    rw [replaceAll_cons_pos r ⟨[], by simp⟩ (by simp)]
    simp [replaceAll_nil]

/-- `s.replace(p, r)` is the identity when `p` does not occur in `s`. -/
theorem replaceAll_of_not_isPart (p r : Str) : ∀ (s : Str),
    ¬ IsPart p s → replaceAll p r s = s := by
  intro s
  induction s using replaceAll.induct p r with
  | case1 => exact fun _ => replaceAll_nil p r
  | case2 c cs hg ih =>
    intro h
    rcases (replaceAll_guard_iff p c cs).mp hg with ⟨hh, _⟩
    exact absurd (isPart_of_isHead hh) h
  | case3 c cs hg ih =>
    intro h
    have hng : ¬ (IsHead p (c :: cs) ∧ p ≠ []) :=
      fun hh => hg ((replaceAll_guard_iff p c cs).mpr hh)
    rw [replaceAll_cons_neg r hng, ih (fun hcs => h (isPart_cons c hcs))]

theorem tokLike_nameTok : tokLike nameTok := ⟨str "NAME", by decide⟩

theorem tokLike_emailTok : tokLike emailTok := ⟨str "EMAIL", by decide⟩

theorem tokLike_phoneTok : tokLike phoneTok := ⟨str "PHONE", by decide⟩

theorem tokLike_addrTok : tokLike addrTok := ⟨str "ADDRESS", by decide⟩

/-- A guarded replacement cannot create an occurrence of a clean string `v`
that was absent from its input. -/
theorem applyRepl_preserves_absent (field : Option Str) (tok : Str) {v : Str}
    (hv : v ≠ []) (hbl : '[' ∉ v) (hbr : ']' ∉ v) (hvt : ¬ IsPart v tok)
    (htok : tokLike tok) {t : Str} (ht : ¬ IsPart v t) :
    ¬ IsPart v (applyRepl field tok t) := by
  unfold applyRepl
  split
  · exact replaceAll_not_isPart_other hv hbl hbr hvt htok _ t ht
  · exact ht

/-- A truthy field's own value never survives its guarded replacement. -/
theorem applyRepl_kills_self (field : Option Str) (tok : Str)
    (hf : pyTruthy field = true) (hbl : '[' ∉ optVal field) (hbr : ']' ∉ optVal field)
    (hvt : ¬ IsPart (optVal field) tok) (htok : tokLike tok) (t : Str) :
    ¬ IsPart (optVal field) (applyRepl field tok t) := by
  unfold applyRepl
  rw [if_pos hf]
  exact replaceAll_not_isPart_self (pyTruthy_ne_nil hf) hbl hbr hvt htok t

/-- A truthy field whose value occurs in the input leaves its placeholder in
the output of its guarded replacement. -/
theorem applyRepl_token_present (field : Option Str) (tok : Str)
    (hf : pyTruthy field = true) {t : Str} (ht : IsPart (optVal field) t) :
    IsPart tok (applyRepl field tok t) := by
  unfold applyRepl
  rw [if_pos hf]
  exact replaceAll_token_present tok (pyTruthy_ne_nil hf) ht

/-- A bracket-delimited token already present survives a later guarded
replacement whose (clean) pattern is not a substring of the token. -/
theorem applyRepl_keeps_token (field : Option Str) (tok : Str) {q : Str}
    (htok : tokLike q)
    (hcl : pyTruthy field = true →
      optVal field ≠ [] ∧ '[' ∉ optVal field ∧ ']' ∉ optVal field ∧
        ¬ IsPart (optVal field) q)
    {t : Str} (ht : IsPart q t) : IsPart q (applyRepl field tok t) := by
  unfold applyRepl
  split
  · rename_i hf
    obtain ⟨h1, h2, h3, h4⟩ := hcl hf
    exact replaceAll_keeps_token tok htok h1 h2 h3 h4 ht
  · exact ht

/-- Cleanliness of a PII field value: no square brackets, and not a
substring of any of the four placeholder tokens. -/
def cleanVal (field : Option Str) : Prop :=
  '[' ∉ optVal field ∧ ']' ∉ optVal field ∧
    ¬ IsPart (optVal field) nameTok ∧ ¬ IsPart (optVal field) emailTok ∧
    ¬ IsPart (optVal field) phoneTok ∧ ¬ IsPart (optVal field) addrTok

instance (field : Option Str) : Decidable (cleanVal field) := by
  unfold cleanVal
  infer_instance

/-- **C1 (amended)** PII round-trip containment, for clean field values (no
square brackets, not substrings of the placeholder tokens). For every truthy
field: (a) its literal value has zero occurrences in the anonymized text;
(b) its placeholder occurs in the anonymized text *provided the value still
occurs in the text at the point its replacement runs* — for `full_name`
that is the original text, for `email`/`phone`/`address` the text after the
preceding replacements. The original unconditional placeholder guarantee is
false: an earlier replacement can consume every occurrence of a later
field's value (see the counterexample), and then no placeholder for that
field is inserted. -/
theorem anonymize_containment (pii : PIIRec) (text : Str)
    (hn : pyTruthy pii.full_name = true → cleanVal pii.full_name)
    (he : pyTruthy pii.email = true → cleanVal pii.email)
    (hph : pyTruthy pii.phone = true → cleanVal pii.phone)
    (ha : pyTruthy pii.address = true → cleanVal pii.address) :
    (pyTruthy pii.full_name = true →
      ¬ IsPart (optVal pii.full_name) (anonymizeWith pii text) ∧
        (IsPart (optVal pii.full_name) text →
          IsPart nameTok (anonymizeWith pii text))) ∧
    (pyTruthy pii.email = true →
      ¬ IsPart (optVal pii.email) (anonymizeWith pii text) ∧
        (IsPart (optVal pii.email) (anonStage1 pii text) →
          IsPart emailTok (anonymizeWith pii text))) ∧
    (pyTruthy pii.phone = true →
      ¬ IsPart (optVal pii.phone) (anonymizeWith pii text) ∧
        (IsPart (optVal pii.phone) (anonStage2 pii text) →
          IsPart phoneTok (anonymizeWith pii text))) ∧
    (pyTruthy pii.address = true →
      ¬ IsPart (optVal pii.address) (anonymizeWith pii text) ∧
        (IsPart (optVal pii.address) (anonStage3 pii text) →
          IsPart addrTok (anonymizeWith pii text))) := by
  refine ⟨?_, ?_, ?_, ?_⟩
  · intro hf
    obtain ⟨hbl, hbr, hvn, hve, hvp, hva⟩ := hn hf
    have hne : optVal pii.full_name ≠ [] := pyTruthy_ne_nil hf
    constructor
    · have h1 : ¬ IsPart (optVal pii.full_name) (anonStage1 pii text) :=
        applyRepl_kills_self pii.full_name nameTok hf hbl hbr hvn tokLike_nameTok text
      have h2 : ¬ IsPart (optVal pii.full_name) (anonStage2 pii text) :=
        applyRepl_preserves_absent pii.email emailTok hne hbl hbr hve tokLike_emailTok h1
      have h3 : ¬ IsPart (optVal pii.full_name) (anonStage3 pii text) :=
        applyRepl_preserves_absent pii.phone phoneTok hne hbl hbr hvp tokLike_phoneTok h2
      exact applyRepl_preserves_absent pii.address addrTok hne hbl hbr hva tokLike_addrTok h3
    · intro hocc
      have h1 : IsPart nameTok (anonStage1 pii text) :=
        applyRepl_token_present pii.full_name nameTok hf hocc
      have h2 : IsPart nameTok (anonStage2 pii text) :=
        applyRepl_keeps_token pii.email emailTok tokLike_nameTok
          (fun hfe => ⟨pyTruthy_ne_nil hfe, (he hfe).1, (he hfe).2.1, (he hfe).2.2.1⟩) h1
      have h3 : IsPart nameTok (anonStage3 pii text) :=
        applyRepl_keeps_token pii.phone phoneTok tokLike_nameTok
          (fun hfp => ⟨pyTruthy_ne_nil hfp, (hph hfp).1, (hph hfp).2.1, (hph hfp).2.2.1⟩) h2
      exact applyRepl_keeps_token pii.address addrTok tokLike_nameTok
        (fun hfa => ⟨pyTruthy_ne_nil hfa, (ha hfa).1, (ha hfa).2.1, (ha hfa).2.2.1⟩) h3
  · intro hf
    obtain ⟨hbl, hbr, _, hve, hvp, hva⟩ := he hf
    have hne : optVal pii.email ≠ [] := pyTruthy_ne_nil hf
    constructor
    · have h2 : ¬ IsPart (optVal pii.email) (anonStage2 pii text) :=
        applyRepl_kills_self pii.email emailTok hf hbl hbr hve tokLike_emailTok
          (anonStage1 pii text)
      have h3 : ¬ IsPart (optVal pii.email) (anonStage3 pii text) :=
        applyRepl_preserves_absent pii.phone phoneTok hne hbl hbr hvp tokLike_phoneTok h2
      exact applyRepl_preserves_absent pii.address addrTok hne hbl hbr hva tokLike_addrTok h3
    · intro hocc
      have h2 : IsPart emailTok (anonStage2 pii text) :=
        applyRepl_token_present pii.email emailTok hf hocc
      have h3 : IsPart emailTok (anonStage3 pii text) :=
        applyRepl_keeps_token pii.phone phoneTok tokLike_emailTok
          (fun hfp => ⟨pyTruthy_ne_nil hfp, (hph hfp).1, (hph hfp).2.1, (hph hfp).2.2.2.1⟩) h2
      exact applyRepl_keeps_token pii.address addrTok tokLike_emailTok
        (fun hfa => ⟨pyTruthy_ne_nil hfa, (ha hfa).1, (ha hfa).2.1, (ha hfa).2.2.2.1⟩) h3
  · intro hf
    obtain ⟨hbl, hbr, _, _, hvp, hva⟩ := hph hf
    have hne : optVal pii.phone ≠ [] := pyTruthy_ne_nil hf
    constructor
    · have h3 : ¬ IsPart (optVal pii.phone) (anonStage3 pii text) :=
        applyRepl_kills_self pii.phone phoneTok hf hbl hbr hvp tokLike_phoneTok
          (anonStage2 pii text)
      exact applyRepl_preserves_absent pii.address addrTok hne hbl hbr hva tokLike_addrTok h3
    · intro hocc
      have h3 : IsPart phoneTok (anonStage3 pii text) :=
        applyRepl_token_present pii.phone phoneTok hf hocc
      exact applyRepl_keeps_token pii.address addrTok tokLike_phoneTok
        (fun hfa => ⟨pyTruthy_ne_nil hfa, (ha hfa).1, (ha hfa).2.1, (ha hfa).2.2.2.2.1⟩) h3
  · intro hf
    obtain ⟨hbl, hbr, _, _, _, hva⟩ := ha hf
    constructor
    · exact applyRepl_kills_self pii.address addrTok hf hbl hbr hva tokLike_addrTok
        (anonStage3 pii text)
    · exact fun hocc => applyRepl_token_present pii.address addrTok hf hocc

/-- Counterexample recognizer output: an email span whose text contains the
phone span's text. -/
def ceResults : List RecogResult :=
  [⟨EntityType.EMAIL_ADDRESS, str "0412345678@mail.com"⟩,
   ⟨EntityType.PHONE_NUMBER, str "0412345678"⟩]

/-- The PII record `extract_pii` builds from `ceResults`. -/
def cePII : PIIRec :=
  ⟨none, some (str "0412345678@mail.com"), some (str "0412345678"), none, defaultLoc⟩

/-- **C1 (counterexample)** On the text `0412345678@mail.com` with both
`email` and `phone` detected and non-null, the email replacement (which runs
first) consumes the only occurrence of the phone value, so the anonymized
text is `[EMAIL]` and contains no `[PHONE]` placeholder — refuting the
unconditional claim that every non-null field's placeholder appears. -/
theorem anonymize_containment_counterexample :
    (processResults (fun _ => false) ceResults).phone = some (str "0412345678") ∧
      (anonymizeText (fun _ => false) ceResults (str "0412345678@mail.com")).1 =
        str "[EMAIL]" ∧
      ¬ IsPart phoneTok (str "[EMAIL]") := by
  have hpii : processResults (fun _ => false) ceResults = cePII := by decide
  refine ⟨by rw [hpii]; rfl, ?_, by decide⟩
  show anonymizeWith (processResults (fun _ => false) ceResults)
      (str "0412345678@mail.com") = str "[EMAIL]"
  rw [hpii]
  show applyRepl cePII.address addrTok (applyRepl cePII.phone phoneTok
      (applyRepl cePII.email emailTok (applyRepl cePII.full_name nameTok
        (str "0412345678@mail.com")))) = str "[EMAIL]"
  rw [show applyRepl cePII.full_name nameTok (str "0412345678@mail.com") =
      str "0412345678@mail.com" from rfl]
  rw [show applyRepl cePII.email emailTok (str "0412345678@mail.com") =
      replaceAll (str "0412345678@mail.com") emailTok (str "0412345678@mail.com") from rfl]
  rw [replaceAll_self emailTok (by decide)]
  rw [show applyRepl cePII.phone phoneTok emailTok =
      replaceAll (str "0412345678") phoneTok emailTok from rfl]
  rw [replaceAll_of_not_isPart (str "0412345678") phoneTok emailTok (by decide)]
  rfl

/-- Witness record: only the name field is set. -/
def piiNameOnly : PIIRec := ⟨some (str "John Smith"), none, none, none, defaultLoc⟩

/-- Witness for the amended C1 at a concrete record and text. -/
theorem anonymize_containment_witness :
    (pyTruthy piiNameOnly.full_name = true → cleanVal piiNameOnly.full_name) ∧
    (pyTruthy piiNameOnly.email = true → cleanVal piiNameOnly.email) ∧
    (pyTruthy piiNameOnly.phone = true → cleanVal piiNameOnly.phone) ∧
    (pyTruthy piiNameOnly.address = true → cleanVal piiNameOnly.address) ∧
    ((pyTruthy piiNameOnly.full_name = true →
      ¬ IsPart (optVal piiNameOnly.full_name)
          (anonymizeWith piiNameOnly (str "Dear John Smith, hello")) ∧
        (IsPart (optVal piiNameOnly.full_name) (str "Dear John Smith, hello") →
          IsPart nameTok (anonymizeWith piiNameOnly (str "Dear John Smith, hello")))) ∧
    (pyTruthy piiNameOnly.email = true →
      ¬ IsPart (optVal piiNameOnly.email)
          (anonymizeWith piiNameOnly (str "Dear John Smith, hello")) ∧
        (IsPart (optVal piiNameOnly.email)
            (anonStage1 piiNameOnly (str "Dear John Smith, hello")) →
          IsPart emailTok (anonymizeWith piiNameOnly (str "Dear John Smith, hello")))) ∧
    (pyTruthy piiNameOnly.phone = true →
      ¬ IsPart (optVal piiNameOnly.phone)
          (anonymizeWith piiNameOnly (str "Dear John Smith, hello")) ∧
        (IsPart (optVal piiNameOnly.phone)
            (anonStage2 piiNameOnly (str "Dear John Smith, hello")) →
          IsPart phoneTok (anonymizeWith piiNameOnly (str "Dear John Smith, hello")))) ∧
    (pyTruthy piiNameOnly.address = true →
      ¬ IsPart (optVal piiNameOnly.address)
          (anonymizeWith piiNameOnly (str "Dear John Smith, hello")) ∧
        (IsPart (optVal piiNameOnly.address)
            (anonStage3 piiNameOnly (str "Dear John Smith, hello")) →
          IsPart addrTok (anonymizeWith piiNameOnly (str "Dear John Smith, hello"))))) :=
  ⟨by decide, by decide, by decide, by decide,
    anonymize_containment piiNameOnly (str "Dear John Smith, hello")
      (by decide) (by decide) (by decide) (by decide)⟩
